import Mathlib

set_option maxRecDepth 20000
set_option maxHeartbeats 1000000

namespace Weld

/-- Scalar kinds of the Weld type system. -/
inductive ScalarKind
  | I32 | I64 | F32 | F64 | Bool
deriving DecidableEq, Repr

/-- Binary operator kinds. -/
inductive BinOpKind
  | Add | Subtract | Multiply | Divide | Modulo
  | Equal | NotEqual | LessThan | LessThanOrEqual | GreaterThan | GreaterThanOrEqual
  | LogicalAnd | LogicalOr | BitwiseAnd | BitwiseOr | Xor
deriving DecidableEq, Repr

mutual
/-- Partially typed types; any subtree may be Unknown. -/
inductive PartialType
  | Unknown
  | Scalar (k : ScalarKind)
  | Vector (t : PartialType)
  | Struct (ts : List PartialType)
  | Builder (b : PartialBuilderKind)
/-- Builder kinds; only Appender exists at this stage. -/
inductive PartialBuilderKind
  | Appender (t : PartialType)
end

/-- A named identifier with a disambiguation id. -/
structure Symbol where
  name : String
  id : Nat
deriving DecidableEq, Repr

/-- Lambda parameter: a name with a partial type. -/
structure PartialParameter where
  name : Symbol
  ty : PartialType

mutual
/-- An expression together with its attached partial type. -/
inductive PartialExpr
  | mk (kind : ExprKind) (ty : PartialType)
/-- Expression shapes. -/
inductive ExprKind
  | I32Literal (v : Int)
  | I64Literal (v : Int)
  | F32Literal (v : String)
  | F64Literal (v : String)
  | BoolLiteral (v : Bool)
  | Ident (s : Symbol)
  | MakeVector (elems : List PartialExpr)
  | MakeStruct (elems : List PartialExpr)
  | NewBuilder
  | Let (name : Symbol) (value : PartialExpr) (body : PartialExpr)
  | If (cond : PartialExpr) (onTrue : PartialExpr) (onFalse : PartialExpr)
  | Lambda (params : List PartialParameter) (body : PartialExpr)
  | Apply (f : PartialExpr) (args : List PartialExpr)
  | GetField (e : PartialExpr) (index : Nat)
  | For (data : PartialExpr) (builders : PartialExpr) (body : PartialExpr)
  | Merge (builder : PartialExpr) (value : PartialExpr)
  | Res (builder : PartialExpr)
  | BinOp (op : BinOpKind) (left : PartialExpr) (right : PartialExpr)
end

/-- The expression shape of a PartialExpr. -/
def PartialExpr.kind : PartialExpr → ExprKind
  | .mk k _ => k

/-- The attached type of a PartialExpr. -/
def PartialExpr.ty : PartialExpr → PartialType
  | .mk _ t => t

/-- Replace the attached type of a PartialExpr (models `expr.ty = t`). -/
def PartialExpr.setTy : PartialExpr → PartialType → PartialExpr
  | .mk k _, t => .mk k t

/-- `expr_box` from the ast module: wrap an ExprKind with type Unknown. -/
def expr_box (k : ExprKind) : PartialExpr := .mk k .Unknown

/-- A macro declaration. -/
structure Macro where
  name : Symbol
  parameters : List Symbol
  body : PartialExpr

/-- A program: macros plus one body expression. -/
structure Program where
  macros : List Macro
  body : PartialExpr

/-- Tokens produced by the tokenizer. Float literal payloads are carried as their
source text; no property here depends on floating-point values. -/
inductive Token
  | TI32Literal (v : Int)
  | TI64Literal (v : Int)
  | TF32Literal (v : String)
  | TF64Literal (v : String)
  | TBoolLiteral (v : Bool)
  | TIdent (s : String)
  | TIf
  | TFor
  | TMerge
  | TResult
  | TLet
  | TMacro
  | TI32
  | TI64
  | TF32
  | TF64
  | TBool
  | TVec
  | TAppender
  | TOpenParen
  | TCloseParen
  | TOpenBracket
  | TCloseBracket
  | TOpenBrace
  | TCloseBrace
  | TComma
  | TPlus
  | TMinus
  | TTimes
  | TDivide
  | TModulo
  | TEqual
  | TEqualEqual
  | TNotEqual
  | TLessThan
  | TGreaterThan
  | TLessThanOrEqual
  | TGreaterThanOrEqual
  | TLogicalAnd
  | TLogicalOr
  | TBar
  | TBitwiseAnd
  | TXor
  | TColon
  | TSemicolon
  | TQuestion
  | TDot
  | TEndOfInput
deriving DecidableEq, Repr

/-- Parse/tokenize outcomes. `err` carries a WeldError message as in the source;
`crash` marks an out-of-bounds slice index (a Rust panic), and `fuelOut` marks
exhaustion of the recursion budget of the embedding — both are model artifacts
that a real run of the source never returns as values. -/
inductive PErr
  | err (msg : String)
  | crash
  | fuelOut
deriving DecidableEq, Repr

/-- Modelled from the spec: the Display rendering of a token used in error
messages (the tokenizer module with its Display impl is not among the provided
sources); spellings follow the token alphabet of the spec. -/
def tokenStr : Token → String
  | .TI32Literal v => toString v
  | .TI64Literal v => toString v ++ "L"
  | .TF32Literal v => v ++ "f"
  | .TF64Literal v => v
  | .TBoolLiteral b => if b then "true" else "false"
  | .TIdent s => s
  | .TIf => "if"
  | .TFor => "for"
  | .TMerge => "merge"
  | .TResult => "result"
  | .TLet => "let"
  | .TMacro => "macro"
  | .TI32 => "i32"
  | .TI64 => "i64"
  | .TF32 => "f32"
  | .TF64 => "f64"
  | .TBool => "bool"
  | .TVec => "vec"
  | .TAppender => "appender"
  | .TOpenParen => "("
  | .TCloseParen => ")"
  | .TOpenBracket => "["
  | .TCloseBracket => "]"
  | .TOpenBrace => "\x7b"
  | .TCloseBrace => "\x7d"
  | .TComma => ","
  | .TPlus => "+"
  | .TMinus => "-"
  | .TTimes => "*"
  | .TDivide => "/"
  | .TModulo => "%"
  | .TEqual => "="
  | .TEqualEqual => "=="
  | .TNotEqual => "!="
  | .TLessThan => "<"
  | .TGreaterThan => ">"
  | .TLessThanOrEqual => "<="
  | .TGreaterThanOrEqual => ">="
  | .TLogicalAnd => "&&"
  | .TLogicalOr => "||"
  | .TBar => "|"
  | .TBitwiseAnd => "&"
  | .TXor => "^"
  | .TColon => ":"
  | .TSemicolon => ";"
  | .TQuestion => "?"
  | .TDot => "."
  | .TEndOfInput => "<end of input>"

/-- `Parser::peek`: look at the token at the current position. Indexing out of
bounds is modelled as `crash`. -/
def peek (ts : List Token) (pos : Nat) : Except PErr Token :=
  match ts.get? pos with
  | some t => .ok t
  | none => .error .crash

/-- `Parser::next`: consume and return the token at the current position. -/
def nextT (ts : List Token) (pos : Nat) : Except PErr (Token × Nat) :=
  match ts.get? pos with
  | some t => .ok (t, pos + 1)
  | none => .error .crash

/-- `Parser::consume`: consume the next token and require it to equal
`expected`. -/
def consume (ts : List Token) (pos : Nat) (expected : Token) : Except PErr (Unit × Nat) :=
  match nextT ts pos with
  | .error e => .error e
  | .ok (t, pos) =>
    if t ≠ expected then .error (.err ("Expected '" ++ tokenStr expected ++ "'"))
    else .ok ((), pos)

/-- `Parser::is_done`: at the end of the tokens, or looking at EndOfInput. -/
def is_done (ts : List Token) (pos : Nat) : Bool :=
  pos == ts.length || ts.get? pos == some Token.TEndOfInput

/-- `Parser::symbol`: an identifier token as a Symbol with id 0. -/
def symbol (ts : List Token) (pos : Nat) : Except PErr (Symbol × Nat) :=
  match nextT ts pos with
  | .error e => .error e
  | .ok (t, pos) =>
    match t with
    | .TIdent name => .ok (⟨name, 0⟩, pos)
    | other => .error (.err ("Expected identifier but got '" ++ tokenStr other ++ "'"))

/-- `u32::from_str_radix(s, 10)` on the characters of `s`: optional leading
'+', then at least one decimal digit, value within the u32 range. (Rust fails
on intermediate overflow; on all-digit strings that is equivalent to the final
bound check modelled here.) Returns the parsed value, `none` on failure. -/
def fromStrRadix10U32 (cs : List Char) : Option Nat :=
  let ds := match cs with
    | '+' :: rest => rest
    | _ => cs
  if ds.isEmpty then none
  else if ds.all (fun c => c.isDigit) then
    let v := ds.foldl (fun a c => 10 * a + (c.toNat - 48)) 0
    if v < 4294967296 then some v else none
  else none

/-- The field-access step of `apply_expr` after `.` on an identifier token:
`if value.starts_with("$")`, the rest of the identifier goes through
`u32::from_str_radix`; success yields the `GetField` wrapping, failure is an
error, and an identifier without the `$` leaves the expression unchanged. -/
def dollarField (e : PartialExpr) (value : String) : Except PErr PartialExpr :=
  match value.toList with
  | '$' :: rest =>
    (match fromStrRadix10U32 rest with
     | some index => .ok (expr_box (.GetField e index))
     | none => .error (.err ("Expected field index but got '" ++ value ++ "'")))
  | _ => .ok e

mutual

/-- `Parser::program`: macros plus one body expression. -/
def program (ts : List Token) : Nat → Nat → Except PErr (Program × Nat)
  | 0, _ => .error .fuelOut
  | fuel+1, pos => do
    let (ms, pos) ← macros ts fuel pos
    let (body, pos) ← expr ts fuel pos
    .ok (⟨ms, body⟩, pos)

/-- `Parser::macros`: zero or more macro declarations (`while peek == TMacro`). -/
def macros (ts : List Token) : Nat → Nat → Except PErr (List Macro × Nat)
  | 0, _ => .error .fuelOut
  | fuel+1, pos => do
    let t ← peek ts pos
    if t = .TMacro then do
      let (m, pos) ← macro_ ts fuel pos
      let (rest, pos) ← macros ts fuel pos
      .ok (m :: rest, pos)
    else .ok ([], pos)

/-- `Parser::macro_`: `macro name ( params ) = body ;`. -/
def macro_ (ts : List Token) : Nat → Nat → Except PErr (Macro × Nat)
  | 0, _ => .error .fuelOut
  | fuel+1, pos => do
    let (_, pos) ← consume ts pos .TMacro
    let (name, pos) ← symbol ts pos
    let (_, pos) ← consume ts pos .TOpenParen
    let (params, pos) ← macro_params ts fuel pos
    let (_, pos) ← consume ts pos .TCloseParen
    let (_, pos) ← consume ts pos .TEqual
    let (body, pos) ← expr ts fuel pos
    let (_, pos) ← consume ts pos .TSemicolon
    .ok (⟨name, params, body⟩, pos)

/-- The parameter loop of `Parser::macro_` (`while peek != TCloseParen`). -/
def macro_params (ts : List Token) : Nat → Nat → Except PErr (List Symbol × Nat)
  | 0, _ => .error .fuelOut
  | fuel+1, pos => do
    let t ← peek ts pos
    if t = .TCloseParen then .ok ([], pos)
    else do
      let (s, pos) ← symbol ts pos
      let t2 ← peek ts pos
      if t2 = .TComma then do
        let (rest, pos) ← macro_params ts fuel (pos + 1)
        .ok (s :: rest, pos)
      else if t2 ≠ .TCloseParen then .error (.err ("Expected ',' or ')'"))
      else do
        let (rest, pos) ← macro_params ts fuel pos
        .ok (s :: rest, pos)

/-- `Parser::expr`: let, lambda, or operator expression. -/
def expr (ts : List Token) : Nat → Nat → Except PErr (PartialExpr × Nat)
  | 0, _ => .error .fuelOut
  | fuel+1, pos => do
    let t ← peek ts pos
    if t = .TLet then letExpr ts fuel pos
    else if t = .TBar ∨ t = .TLogicalOr then lambda_expr ts fuel pos
    else operator_expr ts fuel pos

/-- `Parser::letExpr`: `let name [: T] = value ; body`. -/
def letExpr (ts : List Token) : Nat → Nat → Except PErr (PartialExpr × Nat)
  | 0, _ => .error .fuelOut
  | fuel+1, pos => do
    let (_, pos) ← consume ts pos .TLet
    let (name, pos) ← symbol ts pos
    let (ty, pos) ← optional_type ts fuel pos
    let (_, pos) ← consume ts pos .TEqual
    let (value, pos) ← operator_expr ts fuel pos
    let (_, pos) ← consume ts pos .TSemicolon
    let (body, pos) ← expr ts fuel pos
    .ok ((expr_box (.Let name value body)).setTy ty, pos)

/-- `Parser::lambda_expr`: `|params| body`, with `||` as the empty list. -/
def lambda_expr (ts : List Token) : Nat → Nat → Except PErr (PartialExpr × Nat)
  | 0, _ => .error .fuelOut
  | fuel+1, pos => do
    let (token, pos) ← nextT ts pos
    if token = .TBar then do
      let (params, pos) ← lambda_params ts fuel pos
      let (_, pos) ← consume ts pos .TBar
      let (body, pos) ← expr ts fuel pos
      .ok (expr_box (.Lambda params body), pos)
    else if token ≠ .TLogicalOr then .error (.err ("Expected '|' or '||'"))
    else do
      let (body, pos) ← expr ts fuel pos
      .ok (expr_box (.Lambda [] body), pos)

/-- The parameter loop of `Parser::lambda_expr` (`while peek != TBar`). -/
def lambda_params (ts : List Token) : Nat → Nat → Except PErr (List PartialParameter × Nat)
  | 0, _ => .error .fuelOut
  | fuel+1, pos => do
    let t ← peek ts pos
    if t = .TBar then .ok ([], pos)
    else do
      let (name, pos) ← symbol ts pos
      let (ty, pos) ← optional_type ts fuel pos
      let t2 ← peek ts pos
      if t2 = .TComma then do
        let (rest, pos) ← lambda_params ts fuel (pos + 1)
        .ok (⟨name, ty⟩ :: rest, pos)
      else if t2 ≠ .TBar then .error (.err ("Expected ',' or '|'"))
      else do
        let (rest, pos) ← lambda_params ts fuel pos
        .ok (⟨name, ty⟩ :: rest, pos)

/-- `Parser::operator_expr`: top of the binary-operator precedence chain. -/
def operator_expr (ts : List Token) : Nat → Nat → Except PErr (PartialExpr × Nat)
  | 0, _ => .error .fuelOut
  | fuel+1, pos => logical_or_expr ts fuel pos

/-- `Parser::logical_or_expr`: terms separated by `||`. -/
def logical_or_expr (ts : List Token) : Nat → Nat → Except PErr (PartialExpr × Nat)
  | 0, _ => .error .fuelOut
  | fuel+1, pos => do
    let (res, pos) ← logical_and_expr ts fuel pos
    logical_or_loop ts fuel res pos

/-- The `while peek == TLogicalOr` loop of `logical_or_expr`. -/
def logical_or_loop (ts : List Token) : Nat → PartialExpr → Nat → Except PErr (PartialExpr × Nat)
  | 0, _, _ => .error .fuelOut
  | fuel+1, res, pos => do
    let t ← peek ts pos
    if t = .TLogicalOr then do
      let (_, pos) ← consume ts pos .TLogicalOr
      let (right, pos) ← logical_and_expr ts fuel pos
      logical_or_loop ts fuel (expr_box (.BinOp .LogicalOr res right)) pos
    else .ok (res, pos)

/-- `Parser::logical_and_expr`: terms separated by `&&`. -/
def logical_and_expr (ts : List Token) : Nat → Nat → Except PErr (PartialExpr × Nat)
  | 0, _ => .error .fuelOut
  | fuel+1, pos => do
    let (res, pos) ← bitwise_or_expr ts fuel pos
    logical_and_loop ts fuel res pos

/-- The `while peek == TLogicalAnd` loop of `logical_and_expr`. -/
def logical_and_loop (ts : List Token) : Nat → PartialExpr → Nat → Except PErr (PartialExpr × Nat)
  | 0, _, _ => .error .fuelOut
  | fuel+1, res, pos => do
    let t ← peek ts pos
    if t = .TLogicalAnd then do
      let (_, pos) ← consume ts pos .TLogicalAnd
      let (right, pos) ← bitwise_or_expr ts fuel pos
      logical_and_loop ts fuel (expr_box (.BinOp .LogicalAnd res right)) pos
    else .ok (res, pos)

/-- `Parser::bitwise_or_expr`: terms separated by `|`. -/
def bitwise_or_expr (ts : List Token) : Nat → Nat → Except PErr (PartialExpr × Nat)
  | 0, _ => .error .fuelOut
  | fuel+1, pos => do
    let (res, pos) ← xor_expr ts fuel pos
    bitwise_or_loop ts fuel res pos

/-- The `while peek == TBar` loop of `bitwise_or_expr`. -/
def bitwise_or_loop (ts : List Token) : Nat → PartialExpr → Nat → Except PErr (PartialExpr × Nat)
  | 0, _, _ => .error .fuelOut
  | fuel+1, res, pos => do
    let t ← peek ts pos
    if t = .TBar then do
      let (_, pos) ← consume ts pos .TBar
      let (right, pos) ← xor_expr ts fuel pos
      bitwise_or_loop ts fuel (expr_box (.BinOp .BitwiseOr res right)) pos
    else .ok (res, pos)

/-- `Parser::xor_expr`: terms separated by `^`. -/
def xor_expr (ts : List Token) : Nat → Nat → Except PErr (PartialExpr × Nat)
  | 0, _ => .error .fuelOut
  | fuel+1, pos => do
    let (res, pos) ← bitwise_and_expr ts fuel pos
    xor_loop ts fuel res pos

/-- The `while peek == TXor` loop of `xor_expr`. -/
def xor_loop (ts : List Token) : Nat → PartialExpr → Nat → Except PErr (PartialExpr × Nat)
  | 0, _, _ => .error .fuelOut
  | fuel+1, res, pos => do
    let t ← peek ts pos
    if t = .TXor then do
      let (_, pos) ← consume ts pos .TXor
      let (right, pos) ← bitwise_and_expr ts fuel pos
      xor_loop ts fuel (expr_box (.BinOp .Xor res right)) pos
    else .ok (res, pos)

/-- `Parser::bitwise_and_expr`: terms separated by `&`. -/
def bitwise_and_expr (ts : List Token) : Nat → Nat → Except PErr (PartialExpr × Nat)
  | 0, _ => .error .fuelOut
  | fuel+1, pos => do
    let (res, pos) ← equality_expr ts fuel pos
    bitwise_and_loop ts fuel res pos

/-- The `while peek == TBitwiseAnd` loop of `bitwise_and_expr`. -/
def bitwise_and_loop (ts : List Token) : Nat → PartialExpr → Nat → Except PErr (PartialExpr × Nat)
  | 0, _, _ => .error .fuelOut
  | fuel+1, res, pos => do
    let t ← peek ts pos
    if t = .TBitwiseAnd then do
      let (_, pos) ← consume ts pos .TBitwiseAnd
      let (right, pos) ← equality_expr ts fuel pos
      bitwise_and_loop ts fuel (expr_box (.BinOp .BitwiseAnd res right)) pos
    else .ok (res, pos)

/-- `Parser::equality_expr`: at most one `==` or `!=` (an `if`, not a loop). -/
def equality_expr (ts : List Token) : Nat → Nat → Except PErr (PartialExpr × Nat)
  | 0, _ => .error .fuelOut
  | fuel+1, pos => do
    let (res, pos) ← comparison_expr ts fuel pos
    let t ← peek ts pos
    if t = .TEqualEqual ∨ t = .TNotEqual then do
      let (token, pos) ← nextT ts pos
      let (right, pos) ← comparison_expr ts fuel pos
      if token = .TEqualEqual then .ok (expr_box (.BinOp .Equal res right), pos)
      else .ok (expr_box (.BinOp .NotEqual res right), pos)
    else .ok (res, pos)

/-- `Parser::comparison_expr`: at most one of `<`, `<=`, `>`, `>=`. -/
def comparison_expr (ts : List Token) : Nat → Nat → Except PErr (PartialExpr × Nat)
  | 0, _ => .error .fuelOut
  | fuel+1, pos => do
    let (res, pos) ← sum_expr ts fuel pos
    let t ← peek ts pos
    if t = .TLessThan ∨ t = .TLessThanOrEqual ∨ t = .TGreaterThan ∨ t = .TGreaterThanOrEqual then do
      let (tk, pos) ← nextT ts pos
      let op := match tk with
        | .TLessThan => BinOpKind.LessThan
        | .TGreaterThan => BinOpKind.GreaterThan
        | .TLessThanOrEqual => BinOpKind.LessThanOrEqual
        | _ => BinOpKind.GreaterThanOrEqual
      let (right, pos) ← sum_expr ts fuel pos
      .ok (expr_box (.BinOp op res right), pos)
    else .ok (res, pos)

/-- `Parser::sum_expr`: terms separated by `+` and `-`. -/
def sum_expr (ts : List Token) : Nat → Nat → Except PErr (PartialExpr × Nat)
  | 0, _ => .error .fuelOut
  | fuel+1, pos => do
    let (res, pos) ← product_expr ts fuel pos
    sum_loop ts fuel res pos

/-- The `while peek == TPlus or TMinus` loop of `sum_expr`. -/
def sum_loop (ts : List Token) : Nat → PartialExpr → Nat → Except PErr (PartialExpr × Nat)
  | 0, _, _ => .error .fuelOut
  | fuel+1, res, pos => do
    let t ← peek ts pos
    if t = .TPlus ∨ t = .TMinus then do
      let (token, pos) ← nextT ts pos
      let (right, pos) ← product_expr ts fuel pos
      if token = .TPlus then
        sum_loop ts fuel (expr_box (.BinOp .Add res right)) pos
      else
        sum_loop ts fuel (expr_box (.BinOp .Subtract res right)) pos
    else .ok (res, pos)

/-- `Parser::product_expr`: terms separated by `*`, `/` and `%`. -/
def product_expr (ts : List Token) : Nat → Nat → Except PErr (PartialExpr × Nat)
  | 0, _ => .error .fuelOut
  | fuel+1, pos => do
    let (res, pos) ← ascribe_expr ts fuel pos
    product_loop ts fuel res pos

/-- The `while peek == TTimes, TDivide or TModulo` loop of `product_expr`. -/
def product_loop (ts : List Token) : Nat → PartialExpr → Nat → Except PErr (PartialExpr × Nat)
  | 0, _, _ => .error .fuelOut
  | fuel+1, res, pos => do
    let t ← peek ts pos
    if t = .TTimes ∨ t = .TDivide ∨ t = .TModulo then do
      let (tk, pos) ← nextT ts pos
      let op := match tk with
        | .TTimes => BinOpKind.Multiply
        | .TDivide => BinOpKind.Divide
        | _ => BinOpKind.Modulo
      let (right, pos) ← ascribe_expr ts fuel pos
      product_loop ts fuel (expr_box (.BinOp op res right)) pos
    else .ok (res, pos)

/-- `Parser::ascribe_expr`: `e : T` applied once on top of an apply chain. -/
def ascribe_expr (ts : List Token) : Nat → Nat → Except PErr (PartialExpr × Nat)
  | 0, _ => .error .fuelOut
  | fuel+1, pos => do
    let (e, pos) ← apply_expr ts fuel pos
    let t ← peek ts pos
    if t = .TColon then do
      let (ty, pos) ← optional_type ts fuel pos
      .ok (e.setTy ty, pos)
    else .ok (e, pos)

/-- `Parser::apply_expr`: a leaf followed by an application chain. -/
def apply_expr (ts : List Token) : Nat → Nat → Except PErr (PartialExpr × Nat)
  | 0, _ => .error .fuelOut
  | fuel+1, pos => do
    let (e, pos) ← leaf_expr ts fuel pos
    apply_loop ts fuel e pos

/-- The `while peek == TDot or TOpenParen` loop of `apply_expr`. After a `.`
an identifier beginning with `$` yields `GetField`; an identifier without the
`$` is silently skipped (the source leaves the expression unchanged); any
non-identifier is an error. -/
def apply_loop (ts : List Token) : Nat → PartialExpr → Nat → Except PErr (PartialExpr × Nat)
  | 0, _, _ => .error .fuelOut
  | fuel+1, e, pos => do
    let t ← peek ts pos
    if t = .TDot ∨ t = .TOpenParen then do
      let (t1, pos) ← nextT ts pos
      if t1 = .TDot then do
        let (t2, pos) ← nextT ts pos
        match t2 with
        | .TIdent value =>
          (match dollarField e value with
           | .ok e2 => apply_loop ts fuel e2 pos
           | .error er => .error er)
        | other => .error (.err ("Expected field index but got '" ++ tokenStr other ++ "'"))
      else do
        let (params, pos) ← call_params ts fuel pos
        let (_, pos) ← consume ts pos .TCloseParen
        apply_loop ts fuel (expr_box (.Apply e params)) pos
    else .ok (e, pos)

/-- The argument loop of a call in `apply_expr` (`while peek != TCloseParen`). -/
def call_params (ts : List Token) : Nat → Nat → Except PErr (List PartialExpr × Nat)
  | 0, _ => .error .fuelOut
  | fuel+1, pos => do
    let t ← peek ts pos
    if t = .TCloseParen then .ok ([], pos)
    else do
      let (param, pos) ← expr ts fuel pos
      let t2 ← peek ts pos
      if t2 = .TComma then do
        let (rest, pos) ← call_params ts fuel (pos + 1)
        .ok (param :: rest, pos)
      else if t2 ≠ .TCloseParen then .error (.err ("Expected ',' or ')'"))
      else do
        let (rest, pos) ← call_params ts fuel pos
        .ok (param :: rest, pos)

/-- `Parser::leaf_expr`: terminal forms of the precedence chain. -/
def leaf_expr (ts : List Token) : Nat → Nat → Except PErr (PartialExpr × Nat)
  | 0, _ => .error .fuelOut
  | fuel+1, pos => do
    let (t, pos) ← nextT ts pos
    match t with
    | .TI32Literal v => .ok (expr_box (.I32Literal v), pos)
    | .TI64Literal v => .ok (expr_box (.I64Literal v), pos)
    | .TF32Literal v => .ok (expr_box (.F32Literal v), pos)
    | .TF64Literal v => .ok (expr_box (.F64Literal v), pos)
    | .TBoolLiteral v => .ok (expr_box (.BoolLiteral v), pos)
    | .TIdent name => .ok (expr_box (.Ident ⟨name, 0⟩), pos)
    | .TOpenParen => do
      let (e, pos) ← expr ts fuel pos
      let (t2, pos) ← nextT ts pos
      if t2 ≠ .TCloseParen then .error (.err ("Expected ')'"))
      else .ok (e, pos)
    | .TOpenBracket => do
      let (elems, pos) ← vec_elems ts fuel pos
      let (_, pos) ← consume ts pos .TCloseBracket
      .ok (expr_box (.MakeVector elems), pos)
    | .TOpenBrace => do
      let (elems, pos) ← struct_elems ts fuel pos
      let (_, pos) ← consume ts pos .TCloseBrace
      .ok (expr_box (.MakeStruct elems), pos)
    | .TIf => do
      let (_, pos) ← consume ts pos .TOpenParen
      let (cond, pos) ← expr ts fuel pos
      let (_, pos) ← consume ts pos .TComma
      let (onTrue, pos) ← expr ts fuel pos
      let (_, pos) ← consume ts pos .TComma
      let (onFalse, pos) ← expr ts fuel pos
      let (_, pos) ← consume ts pos .TCloseParen
      .ok (expr_box (.If cond onTrue onFalse), pos)
    | .TFor => do
      let (_, pos) ← consume ts pos .TOpenParen
      let (data, pos) ← expr ts fuel pos
      let (_, pos) ← consume ts pos .TComma
      let (builders, pos) ← expr ts fuel pos
      let (_, pos) ← consume ts pos .TComma
      let (body, pos) ← expr ts fuel pos
      let (_, pos) ← consume ts pos .TCloseParen
      .ok (expr_box (.For data builders body), pos)
    | .TMerge => do
      let (_, pos) ← consume ts pos .TOpenParen
      let (builder, pos) ← expr ts fuel pos
      let (_, pos) ← consume ts pos .TComma
      let (value, pos) ← expr ts fuel pos
      let (_, pos) ← consume ts pos .TCloseParen
      .ok (expr_box (.Merge builder value), pos)
    | .TResult => do
      let (_, pos) ← consume ts pos .TOpenParen
      let (builder, pos) ← expr ts fuel pos
      let (_, pos) ← consume ts pos .TCloseParen
      .ok (expr_box (.Res builder), pos)
    | .TAppender => do
      let t2 ← peek ts pos
      if t2 = .TOpenBracket then do
        let (_, pos) ← consume ts pos .TOpenBracket
        let (elemType, pos) ← type_ ts fuel pos
        let (_, pos) ← consume ts pos .TCloseBracket
        .ok ((expr_box .NewBuilder).setTy (.Builder (.Appender elemType)), pos)
      else
        .ok ((expr_box .NewBuilder).setTy (.Builder (.Appender .Unknown)), pos)
    | other => .error (.err ("Expected expression but got '" ++ tokenStr other ++ "'"))

/-- The element loop of a vector literal (`while peek != TCloseBracket`). -/
def vec_elems (ts : List Token) : Nat → Nat → Except PErr (List PartialExpr × Nat)
  | 0, _ => .error .fuelOut
  | fuel+1, pos => do
    let t ← peek ts pos
    if t = .TCloseBracket then .ok ([], pos)
    else do
      let (e, pos) ← expr ts fuel pos
      let t2 ← peek ts pos
      if t2 = .TComma then do
        let (rest, pos) ← vec_elems ts fuel (pos + 1)
        .ok (e :: rest, pos)
      else if t2 ≠ .TCloseBracket then .error (.err ("Expected ',' or ']'"))
      else do
        let (rest, pos) ← vec_elems ts fuel pos
        .ok (e :: rest, pos)

/-- The element loop of a struct literal (`while peek != TCloseBrace`). -/
def struct_elems (ts : List Token) : Nat → Nat → Except PErr (List PartialExpr × Nat)
  | 0, _ => .error .fuelOut
  | fuel+1, pos => do
    let t ← peek ts pos
    if t = .TCloseBrace then .ok ([], pos)
    else do
      let (e, pos) ← expr ts fuel pos
      let t2 ← peek ts pos
      if t2 = .TComma then do
        let (rest, pos) ← struct_elems ts fuel (pos + 1)
        .ok (e :: rest, pos)
      else if t2 ≠ .TCloseBrace then .error (.err ("Expected ',' or '\x7d'"))
      else do
        let (rest, pos) ← struct_elems ts fuel pos
        .ok (e :: rest, pos)

/-- `Parser::optional_type`: `: T` if present, Unknown otherwise. -/
def optional_type (ts : List Token) : Nat → Nat → Except PErr (PartialType × Nat)
  | 0, _ => .error .fuelOut
  | fuel+1, pos => do
    let t ← peek ts pos
    if t = .TColon then do
      let (_, pos) ← consume ts pos .TColon
      type_ ts fuel pos
    else .ok (.Unknown, pos)

/-- `Parser::type_`: a PartialType. -/
def type_ (ts : List Token) : Nat → Nat → Except PErr (PartialType × Nat)
  | 0, _ => .error .fuelOut
  | fuel+1, pos => do
    let (t, pos) ← nextT ts pos
    match t with
    | .TI32 => .ok (.Scalar .I32, pos)
    | .TI64 => .ok (.Scalar .I64, pos)
    | .TF32 => .ok (.Scalar .F32, pos)
    | .TF64 => .ok (.Scalar .F64, pos)
    | .TBool => .ok (.Scalar .Bool, pos)
    | .TVec => do
      let (_, pos) ← consume ts pos .TOpenBracket
      let (elemType, pos) ← type_ ts fuel pos
      let (_, pos) ← consume ts pos .TCloseBracket
      .ok (.Vector elemType, pos)
    | .TAppender => do
      let (_, pos) ← consume ts pos .TOpenBracket
      let (elemType, pos) ← type_ ts fuel pos
      let (_, pos) ← consume ts pos .TCloseBracket
      .ok (.Builder (.Appender elemType), pos)
    | .TOpenBrace => do
      let (types, pos) ← type_elems ts fuel pos
      let (_, pos) ← consume ts pos .TCloseBrace
      .ok (.Struct types, pos)
    | .TQuestion => .ok (.Unknown, pos)
    | other => .error (.err ("Expected type but got '" ++ tokenStr other ++ "'"))

/-- The element loop of a struct type (`while peek != TCloseBrace`). -/
def type_elems (ts : List Token) : Nat → Nat → Except PErr (List PartialType × Nat)
  | 0, _ => .error .fuelOut
  | fuel+1, pos => do
    let t ← peek ts pos
    if t = .TCloseBrace then .ok ([], pos)
    else do
      let (ty, pos) ← type_ ts fuel pos
      let t2 ← peek ts pos
      if t2 = .TComma then do
        let (rest, pos) ← type_elems ts fuel (pos + 1)
        .ok (ty :: rest, pos)
      else if t2 ≠ .TCloseBrace then .error (.err ("Expected ',' or '\x7d'"))
      else do
        let (rest, pos) ← type_elems ts fuel pos
        .ok (ty :: rest, pos)

end

/-- Recursion budget handed to a parse of `ts`: generous enough that no
successful or failing parse of the source ever runs out. -/
def FUEL (ts : List Token) : Nat := 32 * ts.length + 32

/-- The `if res.is_ok() && !parser.is_done() { return weld_err!("Unexpected
token: {}", parser.peek()) }` epilogue shared by all four entry points. -/
def endCheck {α : Type} (ts : List Token) (run : Except PErr (α × Nat)) : Except PErr α :=
  match run with
  | .error e => .error e
  | .ok (res, pos) =>
    if is_done ts pos then .ok res
    else match ts.get? pos with
      | some t => .error (.err ("Unexpected token: " ++ tokenStr t))
      | none => .error .crash

/-- The body of `parse_program` after tokenization: run `Parser::program`,
then fail with "Unexpected token: …" when not at the end of the input. -/
def parse_program_tokens (ts : List Token) : Except PErr Program :=
  endCheck ts (program ts (FUEL ts) 0)

/-- The body of `parse_macros` after tokenization. -/
def parse_macros_tokens (ts : List Token) : Except PErr (List Macro) :=
  endCheck ts (macros ts (FUEL ts) 0)

/-- The body of `parse_expr` after tokenization. -/
def parse_expr_tokens (ts : List Token) : Except PErr PartialExpr :=
  endCheck ts (expr ts (FUEL ts) 0)

/-- The body of `parse_type` after tokenization. -/
def parse_type_tokens (ts : List Token) : Except PErr PartialType :=
  endCheck ts (type_ ts (FUEL ts) 0)

/-- Is this a character that may continue an identifier? -/
def isIdentChar (c : Char) : Bool :=
  c.isAlpha || c.isDigit || c = '_' || c = '$'

/-- Is this a character that may start an identifier? -/
def isIdentStart (c : Char) : Bool :=
  c.isAlpha || c = '_' || c = '$'

/-- Modelled from the spec: the keyword table of the tokenizer (the tokenizer
module is not among the provided sources). An identifier-shaped word that is
not a keyword becomes `TIdent`. -/
def keywordOrIdent (s : String) : Token :=
  if s = "if" then .TIf
  else if s = "for" then .TFor
  else if s = "merge" then .TMerge
  else if s = "result" then .TResult
  else if s = "let" then .TLet
  else if s = "macro" then .TMacro
  else if s = "i32" then .TI32
  else if s = "i64" then .TI64
  else if s = "f32" then .TF32
  else if s = "f64" then .TF64
  else if s = "bool" then .TBool
  else if s = "vec" then .TVec
  else if s = "appender" then .TAppender
  else if s = "true" then .TBoolLiteral true
  else if s = "false" then .TBoolLiteral false
  else .TIdent s

/-- Decimal value of a digit run. -/
def charsToNat (ds : List Char) : Nat :=
  ds.foldl (fun a c => 10 * a + (c.toNat - 48)) 0

/-- Does the character run start with an identifier character? Used to reject
an identifier glued to the end of a number. -/
def identCharAt (cs : List Char) : Bool :=
  match cs with
  | c :: _ => isIdentChar c
  | [] => false

/-- Modelled from the spec: scan an optional exponent part of a decimal
literal; returns the consumed characters and the remainder. -/
def scanExponent (cs : List Char) : Except PErr (List Char × List Char) :=
  match cs with
  | c :: rest =>
    if c = 'e' ∨ c = 'E' then
      match rest with
      | s :: rest1 =>
        if s = '+' ∨ s = '-' then
          let (es, rest2) := rest1.span (fun ch => ch.isDigit)
          if es.isEmpty then .error (.err ("malformed number"))
          else .ok (c :: s :: es, rest2)
        else
          let (es, rest2) := rest.span (fun ch => ch.isDigit)
          if es.isEmpty then .error (.err ("malformed number"))
          else .ok (c :: es, rest2)
      | [] => .error (.err ("malformed number"))
    else .ok ([], cs)
  | [] => .ok ([], cs)

/-- Modelled from the spec: scan a numeric literal starting with a digit.
Integer → I32, `L` suffix → I64, decimal point or exponent → F64, `f` suffix
→ F32; an identifier character glued to the number is a malformed number. -/
def scanNumber (cs : List Char) : Except PErr (Token × List Char) :=
  let (ds, rest) := cs.span (fun c => c.isDigit)
  match rest with
  | '.' :: rest1 =>
    let (fs, rest2) := rest1.span (fun c => c.isDigit)
    if fs.isEmpty then .error (.err ("malformed number"))
    else do
      let (es, rest3) ← scanExponent rest2
      let text := String.mk (ds ++ '.' :: (fs ++ es))
      match rest3 with
      | 'f' :: rest4 =>
        if identCharAt rest4 then .error (.err ("malformed number"))
        else .ok (.TF32Literal text, rest4)
      | _ =>
        if identCharAt rest3 then .error (.err ("malformed number"))
        else .ok (.TF64Literal text, rest3)
  | 'L' :: rest1 =>
    if identCharAt rest1 then .error (.err ("malformed number"))
    else if charsToNat ds < 9223372036854775808 then .ok (.TI64Literal (charsToNat ds), rest1)
    else .error (.err ("malformed number"))
  | 'f' :: rest1 =>
    if identCharAt rest1 then .error (.err ("malformed number"))
    else .ok (.TF32Literal (String.mk ds), rest1)
  | _ => do
    let (es, rest2) ← scanExponent rest
    if es.isEmpty then
      if identCharAt rest then .error (.err ("malformed number"))
      else if charsToNat ds < 2147483648 then .ok (.TI32Literal (charsToNat ds), rest)
      else .error (.err ("malformed number"))
    else
      let text := String.mk (ds ++ es)
      match rest2 with
      | 'f' :: rest3 =>
        if identCharAt rest3 then .error (.err ("malformed number"))
        else .ok (.TF32Literal text, rest3)
      | _ =>
        if identCharAt rest2 then .error (.err ("malformed number"))
        else .ok (.TF64Literal text, rest2)

/-- Modelled from the spec: one tokenizer step plus recursion on the remaining
characters: whitespace skipped, maximal munch on multi-character operators,
keywords and identifiers, numeric literals, and an explicit end-of-input
sentinel at the end. -/
def tokenizeLoop (ts : List Char) : Nat → Except PErr (List Token)
  | 0 => .error .fuelOut
  | n+1 =>
    match ts with
    | [] => .ok [.TEndOfInput]
    | c :: rest =>
      if c.isWhitespace then tokenizeLoop rest n
      else if c.isDigit then do
        let (tok, rest1) := ← scanNumber (c :: rest)
        let toks ← tokenizeLoop rest1 n
        .ok (tok :: toks)
      else if isIdentStart c then
        let (idc, rest1) := (c :: rest).span isIdentChar
        do
          let toks ← tokenizeLoop rest1 n
          .ok (keywordOrIdent (String.mk idc) :: toks)
      else do
        let (tok, rest1) := ←
          (match c, rest with
          | '=', '=' :: r => .ok (Token.TEqualEqual, r)
          | '!', '=' :: r => .ok (Token.TNotEqual, r)
          | '<', '=' :: r => .ok (Token.TLessThanOrEqual, r)
          | '>', '=' :: r => .ok (Token.TGreaterThanOrEqual, r)
          | '&', '&' :: r => .ok (Token.TLogicalAnd, r)
          | '|', '|' :: r => .ok (Token.TLogicalOr, r)
          | '=', r => .ok (Token.TEqual, r)
          | '<', r => .ok (Token.TLessThan, r)
          | '>', r => .ok (Token.TGreaterThan, r)
          | '&', r => .ok (Token.TBitwiseAnd, r)
          | '|', r => .ok (Token.TBar, r)
          | '+', r => .ok (Token.TPlus, r)
          | '-', r => .ok (Token.TMinus, r)
          | '*', r => .ok (Token.TTimes, r)
          | '/', r => .ok (Token.TDivide, r)
          | '%', r => .ok (Token.TModulo, r)
          | '(', r => .ok (Token.TOpenParen, r)
          | ')', r => .ok (Token.TCloseParen, r)
          | '[', r => .ok (Token.TOpenBracket, r)
          | ']', r => .ok (Token.TCloseBracket, r)
          | '\x7b', r => .ok (Token.TOpenBrace, r)
          | '\x7d', r => .ok (Token.TCloseBrace, r)
          | ',', r => .ok (Token.TComma, r)
          | ';', r => .ok (Token.TSemicolon, r)
          | ':', r => .ok (Token.TColon, r)
          | '.', r => .ok (Token.TDot, r)
          | '^', r => .ok (Token.TXor, r)
          | '?', r => .ok (Token.TQuestion, r)
          | other, _ => .error (.err ("unrecognised character '" ++ String.mk [other] ++ "'"))
          : Except PErr (Token × List Char))
        let toks ← tokenizeLoop rest1 n
        .ok (tok :: toks)

/-- Modelled from the spec: `tokenize(input)` — the tokenizer module is not
among the provided sources; this follows the token alphabet, maximal munch,
whitespace and failure rules of the spec, ending with `TEndOfInput`. -/
def tokenize (input : String) : Except PErr (List Token) :=
  tokenizeLoop input.toList (input.length + 1)

/-- Entry point `parse_program`. -/
def parse_program (input : String) : Except PErr Program := do
  let ts ← tokenize input
  parse_program_tokens ts

/-- Entry point `parse_macros`. -/
def parse_macros (input : String) : Except PErr (List Macro) := do
  let ts ← tokenize input
  parse_macros_tokens ts

/-- Entry point `parse_expr`. -/
def parse_expr (input : String) : Except PErr PartialExpr := do
  let ts ← tokenize input
  parse_expr_tokens ts

/-- Entry point `parse_type`. -/
def parse_type (input : String) : Except PErr PartialType := do
  let ts ← tokenize input
  parse_type_tokens ts

/-- Shorthand for the identifier expression the parser builds. -/
def identE (s : String) : PartialExpr := expr_box (.Ident ⟨s, 0⟩)

/-- Shorthand for the binary-operation expression the parser builds. -/
def binE (op : BinOpKind) (l r : PartialExpr) : PartialExpr := expr_box (.BinOp op l r)

/-- "The message `s` starts with `p`", rendered on the character lists. -/
def strStartsWith (s p : String) : Bool := p.toList.isPrefixOf s.toList

/-- The token list ends with the EndOfInput sentinel. -/
def EndsWithEOI (ts : List Token) : Prop := ts.getLast? = some Token.TEndOfInput

/-- The relation claim C1 asserts between an entry point's result and the
inner parse it wraps: success of the entry is success of the inner parse with
the position at the EndOfInput sentinel, and leftover tokens turn an inner
success into an "Unexpected token: …" error. -/
def EntryOkProp {α : Type} (entry : Except PErr α) (run : Except PErr (α × Nat))
    (ts : List Token) : Prop :=
  ((∃ v, entry = .ok v) ↔ ∃ v pos, run = .ok (v, pos) ∧ is_done ts pos = true)
  ∧ ∀ (v : α) (pos : Nat) (t : Token), run = .ok (v, pos) → is_done ts pos = false →
      ts.get? pos = some t →
      ∃ m, entry = .error (.err m) ∧ strStartsWith m ("Unexpected token:") = true

/-- Safety predicate of a parser step: the result is not an out-of-bounds
access, and a successful parse leaves the position strictly inside the token
slice. -/
def POk {α : Type} (ts : List Token) (r : Except PErr (α × Nat)) : Prop :=
  r ≠ .error .crash ∧ ∀ a p, r = .ok (a, p) → p < ts.length

/-- Token list of a binary-operator chain continuation: `op y op z … EOI`. -/
def chainToks (op : Token) (ys : List String) : List Token :=
  match ys with
  | [] => [.TEndOfInput]
  | y :: rest => op :: .TIdent y :: chainToks op rest

/-- Token list of a mixed-operator chain continuation: `op1 y1 op2 y2 … EOI`. -/
def chainToks2 (items : List (Token × String)) : List Token :=
  match items with
  | [] => [.TEndOfInput]
  | p :: rest => p.1 :: .TIdent p.2 :: chainToks2 rest

/-- The `BinOp` kind `sum_expr` builds for a `+`/`-` token. -/
def sumOp (t : Token) : BinOpKind := if t = .TPlus then .Add else .Subtract

/-- The `BinOp` kind `product_expr` builds for a `*`/`/`/`%` token. -/
def prodOp (t : Token) : BinOpKind :=
  match t with
  | .TTimes => BinOpKind.Multiply
  | .TDivide => BinOpKind.Divide
  | _ => BinOpKind.Modulo

/-- Tokens that stop an `ascribe_expr`/`apply_expr` continuation. -/
def StopAscribe (t : Token) : Prop := t ≠ .TColon ∧ t ≠ .TDot ∧ t ≠ .TOpenParen

/-- Tokens that stop a `product_expr` continuation. -/
def StopProduct (t : Token) : Prop :=
  StopAscribe t ∧ t ≠ .TTimes ∧ t ≠ .TDivide ∧ t ≠ .TModulo

/-- Tokens that stop a `sum_expr` continuation. -/
def StopSum (t : Token) : Prop := StopProduct t ∧ t ≠ .TPlus ∧ t ≠ .TMinus

/-- Tokens that stop a `comparison_expr` continuation. -/
def StopCmp (t : Token) : Prop :=
  StopSum t ∧ t ≠ .TLessThan ∧ t ≠ .TLessThanOrEqual ∧ t ≠ .TGreaterThan ∧
    t ≠ .TGreaterThanOrEqual

/-- Tokens that stop an `equality_expr` continuation. -/
def StopEq (t : Token) : Prop := StopCmp t ∧ t ≠ .TEqualEqual ∧ t ≠ .TNotEqual

/-- Tokens that stop a `bitwise_and_expr` continuation. -/
def StopBand (t : Token) : Prop := StopEq t ∧ t ≠ .TBitwiseAnd

/-- Tokens that stop an `xor_expr` continuation. -/
def StopXor (t : Token) : Prop := StopBand t ∧ t ≠ .TXor

/-- Tokens that stop a `bitwise_or_expr` continuation. -/
def StopBor (t : Token) : Prop := StopXor t ∧ t ≠ .TBar

/-- Tokens that stop a `logical_and_expr` continuation. -/
def StopAnd (t : Token) : Prop := StopBor t ∧ t ≠ .TLogicalAnd

/-- The simultaneous safety invariant over all parser functions at one fuel. -/
structure ParserPOk (ts : List Token) (fuel : Nat) : Prop where
  hprogram : ∀ pos, pos < ts.length → POk ts (program ts fuel pos)
  hmacros : ∀ pos, pos < ts.length → POk ts (macros ts fuel pos)
  hmacro : ∀ pos, pos < ts.length → POk ts (macro_ ts fuel pos)
  hmparams : ∀ pos, pos < ts.length → POk ts (macro_params ts fuel pos)
  hexpr : ∀ pos, pos < ts.length → POk ts (expr ts fuel pos)
  hlet : ∀ pos, pos < ts.length → POk ts (letExpr ts fuel pos)
  hlambda : ∀ pos, pos < ts.length → POk ts (lambda_expr ts fuel pos)
  hlparams : ∀ pos, pos < ts.length → POk ts (lambda_params ts fuel pos)
  hop : ∀ pos, pos < ts.length → POk ts (operator_expr ts fuel pos)
  hor : ∀ pos, pos < ts.length → POk ts (logical_or_expr ts fuel pos)
  horl : ∀ res pos, pos < ts.length → POk ts (logical_or_loop ts fuel res pos)
  hand : ∀ pos, pos < ts.length → POk ts (logical_and_expr ts fuel pos)
  handl : ∀ res pos, pos < ts.length → POk ts (logical_and_loop ts fuel res pos)
  hbor : ∀ pos, pos < ts.length → POk ts (bitwise_or_expr ts fuel pos)
  hborl : ∀ res pos, pos < ts.length → POk ts (bitwise_or_loop ts fuel res pos)
  hxor : ∀ pos, pos < ts.length → POk ts (xor_expr ts fuel pos)
  hxorl : ∀ res pos, pos < ts.length → POk ts (xor_loop ts fuel res pos)
  hband : ∀ pos, pos < ts.length → POk ts (bitwise_and_expr ts fuel pos)
  hbandl : ∀ res pos, pos < ts.length → POk ts (bitwise_and_loop ts fuel res pos)
  heqx : ∀ pos, pos < ts.length → POk ts (equality_expr ts fuel pos)
  hcmp : ∀ pos, pos < ts.length → POk ts (comparison_expr ts fuel pos)
  hsum : ∀ pos, pos < ts.length → POk ts (sum_expr ts fuel pos)
  hsuml : ∀ res pos, pos < ts.length → POk ts (sum_loop ts fuel res pos)
  hprod : ∀ pos, pos < ts.length → POk ts (product_expr ts fuel pos)
  hprodl : ∀ res pos, pos < ts.length → POk ts (product_loop ts fuel res pos)
  hasc : ∀ pos, pos < ts.length → POk ts (ascribe_expr ts fuel pos)
  happly : ∀ pos, pos < ts.length → POk ts (apply_expr ts fuel pos)
  happlyl : ∀ e pos, pos < ts.length → POk ts (apply_loop ts fuel e pos)
  hcall : ∀ pos, pos < ts.length → POk ts (call_params ts fuel pos)
  hleaf : ∀ pos, pos < ts.length → POk ts (leaf_expr ts fuel pos)
  hvec : ∀ pos, pos < ts.length → POk ts (vec_elems ts fuel pos)
  hstruct : ∀ pos, pos < ts.length → POk ts (struct_elems ts fuel pos)
  hopt : ∀ pos, pos < ts.length → POk ts (optional_type ts fuel pos)
  htype : ∀ pos, pos < ts.length → POk ts (type_ ts fuel pos)
  htelem : ∀ pos, pos < ts.length → POk ts (type_elems ts fuel pos)


theorem strStartsWith_append (p s : String) : strStartsWith (p ++ s) p = true := by
  unfold strStartsWith
  rw [List.isPrefixOf_iff_prefix]
  have h : (p ++ s).toList = p.toList ++ s.toList := by
    simp [String.toList, String.data_append]
  rw [h]
  exact List.prefix_append _ _

theorem unexpected_prefix (t : Token) :
    strStartsWith ("Unexpected token: " ++ tokenStr t) ("Unexpected token:") = true :=
  strStartsWith_append ("Unexpected token:") (" " ++ tokenStr t)

theorem endCheck_ok_iff {α : Type} (ts : List Token) (run : Except PErr (α × Nat)) :
    (∃ v, endCheck ts run = .ok v) ↔ ∃ v pos, run = .ok (v, pos) ∧ is_done ts pos = true := by
  unfold endCheck
  cases run with
  | error e => simp
  | ok vp =>
    obtain ⟨v, pos⟩ := vp
    by_cases h : is_done ts pos
    · simp [h]
      exact ⟨v, pos, ⟨rfl, rfl⟩, h⟩
    · simp only [h, if_false, Bool.false_eq_true, if_neg, ite_false]
      cases hg : ts.get? pos <;> simp_all [List.get?_eq_getElem?]

theorem endCheck_err_of_not_done {α : Type} (ts : List Token) (run : Except PErr (α × Nat))
    (v : α) (pos : Nat) (t : Token) (h : run = .ok (v, pos)) (hd : is_done ts pos = false)
    (hg : ts.get? pos = some t) :
    endCheck ts run = .error (.err ("Unexpected token: " ++ tokenStr t)) := by
  subst h
  unfold endCheck
  rw [List.get?_eq_getElem?] at hg
  simp [hd, hg]


theorem endCheck_entry_prop {α : Type} (ts : List Token) (run : Except PErr (α × Nat))
    (entry : Except PErr α) (he : entry = endCheck ts run) : EntryOkProp entry run ts := by
  subst he
  refine ⟨endCheck_ok_iff ts run, ?_⟩
  intro v pos t h hd hg
  exact ⟨"Unexpected token: " ++ tokenStr t,
    endCheck_err_of_not_done ts run v pos t h hd hg, unexpected_prefix t⟩

/-- C1. For every input string whose tokenization succeeds, each of the four
entry points returns Ok exactly when the inner parse succeeds with the
position at the EndOfInput sentinel; if the inner parse succeeds but a token
remains before EndOfInput, the entry point returns an error whose message
starts with "Unexpected token:". -/
theorem claim_C1 (s : String) (ts : List Token) (h : tokenize s = .ok ts) :
    EntryOkProp (parse_program s) (program ts (FUEL ts) 0) ts
    ∧ EntryOkProp (parse_macros s) (macros ts (FUEL ts) 0) ts
    ∧ EntryOkProp (parse_expr s) (expr ts (FUEL ts) 0) ts
    ∧ EntryOkProp (parse_type s) (type_ ts (FUEL ts) 0) ts := by
  have h1 : parse_program s = parse_program_tokens ts := by
    unfold parse_program
    rw [h]
    rfl
  have h2 : parse_macros s = parse_macros_tokens ts := by
    unfold parse_macros
    rw [h]
    rfl
  have h3 : parse_expr s = parse_expr_tokens ts := by
    unfold parse_expr
    rw [h]
    rfl
  have h4 : parse_type s = parse_type_tokens ts := by
    unfold parse_type
    rw [h]
    rfl
  exact ⟨endCheck_entry_prop ts _ _ (h1.trans (by unfold parse_program_tokens; rfl)),
    endCheck_entry_prop ts _ _ (h2.trans (by unfold parse_macros_tokens; rfl)),
    endCheck_entry_prop ts _ _ (h3.trans (by unfold parse_expr_tokens; rfl)),
    endCheck_entry_prop ts _ _ (h4.trans (by unfold parse_type_tokens; rfl))⟩

/-- Witness for C1 at the concrete input "a". -/
theorem claim_C1_witness :
    EntryOkProp (parse_expr "a")
      (expr [.TIdent "a", .TEndOfInput] (FUEL [.TIdent "a", .TEndOfInput]) 0)
      [.TIdent "a", .TEndOfInput] :=
  (claim_C1 "a" [.TIdent "a", .TEndOfInput] rfl).2.2.1

/-- C3. Latent bug in `apply_expr`: after `.`, an identifier that does not
begin with `$` is silently skipped instead of raising an error — `a.b`
parses successfully to just the identifier `a`, contradicting the documented
grammar, which demands an error for any non-`$N` form after `.`. -/
theorem claim_C3 : parse_expr "a.b" = .ok (identE "a") := by
  with_unfolding_all rfl

/-- C4. Non-associativity of the equality and comparison levels: any chain of
two operators of the equality level (`==`/`!=`) or of the comparison level
(`<`/`<=`/`>`/`>=`) over identifiers is rejected, while a single operator per
level is accepted: `a>b==c` parses as `((a>b)==c)`. -/
theorem claim_C4 :
    (∀ (a b c : String) (o1 o2 : Token),
        (o1 = .TEqualEqual ∨ o1 = .TNotEqual) → (o2 = .TEqualEqual ∨ o2 = .TNotEqual) →
        ∃ m, parse_expr_tokens [.TIdent a, o1, .TIdent b, o2, .TIdent c, .TEndOfInput]
          = .error (.err m))
    ∧ (∀ (a b c : String) (o1 o2 : Token),
        (o1 = .TLessThan ∨ o1 = .TLessThanOrEqual ∨ o1 = .TGreaterThan ∨ o1 = .TGreaterThanOrEqual) →
        (o2 = .TLessThan ∨ o2 = .TLessThanOrEqual ∨ o2 = .TGreaterThan ∨ o2 = .TGreaterThanOrEqual) →
        ∃ m, parse_expr_tokens [.TIdent a, o1, .TIdent b, o2, .TIdent c, .TEndOfInput]
          = .error (.err m))
    ∧ parse_expr "a>b>c" = .error (.err ("Unexpected token: >"))
    ∧ parse_expr "a==b==c" = .error (.err ("Unexpected token: =="))
    ∧ parse_expr "a>b==c"
        = .ok (binE .Equal (binE .GreaterThan (identE "a") (identE "b")) (identE "c")) := by
  refine ⟨?_, ?_, ?_, ?_, ?_⟩
  · intro a b c o1 o2 h1 h2
    rcases h1 with rfl | rfl <;> rcases h2 with rfl | rfl <;>
      exact ⟨_, by with_unfolding_all rfl⟩
  · intro a b c o1 o2 h1 h2
    rcases h1 with rfl | rfl | rfl | rfl <;> rcases h2 with rfl | rfl | rfl | rfl <;>
      exact ⟨_, by with_unfolding_all rfl⟩
  · with_unfolding_all rfl
  · with_unfolding_all rfl
  · with_unfolding_all rfl

/-- Witness for C4 with both hypothesis-bearing conjuncts applied at concrete
operators. -/
theorem claim_C4_witness :
    (∃ m, parse_expr_tokens [.TIdent "a", .TEqualEqual, .TIdent "b", .TNotEqual, .TIdent "c",
        .TEndOfInput] = .error (.err m))
    ∧ (∃ m, parse_expr_tokens [.TIdent "a", .TGreaterThan, .TIdent "b", .TGreaterThan,
        .TIdent "c", .TEndOfInput] = .error (.err m)) :=
  ⟨claim_C4.1 "a" "b" "c" .TEqualEqual .TNotEqual (Or.inl rfl) (Or.inr rfl),
   claim_C4.2.1 "a" "b" "c" .TGreaterThan .TGreaterThan (Or.inr (Or.inr (Or.inl rfl)))
     (Or.inr (Or.inr (Or.inl rfl)))⟩

/-- C5 counterexample to the claim as stated: the value of a `let` is parsed
with `operator_expr`, the full precedence chain from `||` down, not at the
additive level 8 — `let a = b || c; a` succeeds with the `||` operation as
the bound value, where a level-8 value parse would have stopped before `||`
and failed on the missing `;`. -/
theorem claim_C5_counterexample :
    parse_expr "let a = b || c; a"
      = .ok (.mk (.Let ⟨"a", 0⟩ (binE .LogicalOr (identE "b") (identE "c")) (identE "a"))
          .Unknown) := by
  with_unfolding_all rfl

/-- C5 (amended). A let expression has the form `let name [: T] = value ;
body` where the value is parsed at the operator-expression level (the full
binary-operator precedence chain, not a bare `let` or lambda expression), and
the optional ascription attaches to the Let node's own ty field, not to the
value or the body. -/
theorem claim_C5 :
    parse_expr "let a: i32 = b || c; a"
      = .ok (.mk (.Let ⟨"a", 0⟩ (binE .LogicalOr (identE "b") (identE "c")) (identE "a"))
          (.Scalar .I32))
    ∧ parse_expr "let a = let b = c; d; e"
        = .error (.err ("Expected expression but got 'let'"))
    ∧ parse_expr "let a = |x| x; a"
        = .error (.err ("Expected expression but got '|'")) := by
  refine ⟨?_, ?_, ?_⟩ <;> with_unfolding_all rfl

/-- C6. A macro declaration is `macro name ( param , … ) = body ;` with zero
or more parameters and a mandatory trailing semicolon, and a program is zero
or more macros followed by exactly one body expression: the example program
parses with exactly its two macros, and a trailing `;` after the program body
expression is rejected. -/
theorem claim_C6 :
    parse_program "macro a(x) = x+x; macro b() = 5; a(b)"
      = .ok ⟨[⟨⟨"a", 0⟩, [⟨"x", 0⟩], binE .Add (identE "x") (identE "x")⟩,
              ⟨⟨"b", 0⟩, [], expr_box (.I32Literal 5)⟩],
             expr_box (.Apply (identE "a") [identE "b"])⟩
    ∧ parse_program "macro a() = b; a() + b;" = .error (.err ("Unexpected token: ;")) := by
  refine ⟨?_, ?_⟩ <;> with_unfolding_all rfl

theorem bind_ok {ε α β : Type} (a : α) (f : α → Except ε β) :
    ((Except.ok a : Except ε α) >>= f) = f a := rfl

theorem bind_err {ε α β : Type} (e : ε) (f : α → Except ε β) :
    ((Except.error e : Except ε α) >>= f) = .error e := rfl

theorem peek_eq {ts : List Token} {pos : Nat} {t : Token} (h : ts.get? pos = some t) :
    peek ts pos = .ok t := by
  unfold peek
  rw [h]

theorem nextT_eq {ts : List Token} {pos : Nat} {t : Token} (h : ts.get? pos = some t) :
    nextT ts pos = .ok (t, pos + 1) := by
  unfold nextT
  rw [h]

theorem consume_eq {ts : List Token} {pos : Nat} {t : Token} (h : ts.get? pos = some t) :
    consume ts pos t = .ok ((), pos + 1) := by
  unfold consume
  rw [nextT_eq h]
  simp

/-- A `||` loop that sees EndOfInput exits at once. -/
theorem logical_or_loop_exit {ts : List Token} {pos : Nat} (f : Nat) (res : PartialExpr)
    (hq : ts.get? pos = some .TEndOfInput) :
    logical_or_loop ts (f + 1) res pos = .ok (res, pos) := by
  simp only [logical_or_loop, peek_eq hq, bind_ok]
  rfl

theorem logical_and_loop_exit {ts : List Token} {pos : Nat} (f : Nat) (res : PartialExpr)
    (hq : ts.get? pos = some .TEndOfInput) :
    logical_and_loop ts (f + 1) res pos = .ok (res, pos) := by
  simp only [logical_and_loop, peek_eq hq, bind_ok]
  rfl

theorem bitwise_or_loop_exit {ts : List Token} {pos : Nat} (f : Nat) (res : PartialExpr)
    (hq : ts.get? pos = some .TEndOfInput) :
    bitwise_or_loop ts (f + 1) res pos = .ok (res, pos) := by
  simp only [bitwise_or_loop, peek_eq hq, bind_ok]
  rfl

theorem xor_loop_exit {ts : List Token} {pos : Nat} (f : Nat) (res : PartialExpr)
    (hq : ts.get? pos = some .TEndOfInput) :
    xor_loop ts (f + 1) res pos = .ok (res, pos) := by
  simp only [xor_loop, peek_eq hq, bind_ok]
  rfl

theorem bitwise_and_loop_exit {ts : List Token} {pos : Nat} (f : Nat) (res : PartialExpr)
    (hq : ts.get? pos = some .TEndOfInput) :
    bitwise_and_loop ts (f + 1) res pos = .ok (res, pos) := by
  simp only [bitwise_and_loop, peek_eq hq, bind_ok]
  rfl

theorem sum_loop_exit {ts : List Token} {pos : Nat} (f : Nat) (res : PartialExpr)
    (hq : ts.get? pos = some .TEndOfInput) :
    sum_loop ts (f + 1) res pos = .ok (res, pos) := by
  simp only [sum_loop, peek_eq hq, bind_ok]
  rfl

theorem product_loop_exit {ts : List Token} {pos : Nat} (f : Nat) (res : PartialExpr)
    (hq : ts.get? pos = some .TEndOfInput) :
    product_loop ts (f + 1) res pos = .ok (res, pos) := by
  simp only [product_loop, peek_eq hq, bind_ok]
  rfl

/-- An `apply_expr` chain loop that sees EndOfInput exits at once. -/
theorem apply_loop_exit {ts : List Token} {pos : Nat} (f : Nat) (res : PartialExpr)
    (hq : ts.get? pos = some .TEndOfInput) :
    apply_loop ts (f + 1) res pos = .ok (res, pos) := by
  simp only [apply_loop, peek_eq hq, bind_ok]
  rfl

/-- Climbing the precedence chain from a finished `apply_expr` whose next
token is the EndOfInput sentinel, with the fuel bookkeeping of each level. -/
theorem ascribe_of_apply {ts : List Token} {pos : Nat} {e : PartialExpr} {q : Nat} (f : Nat)
    (h : apply_expr ts (f + 2) pos = .ok (e, q)) (hq : ts.get? q = some .TEndOfInput) :
    ascribe_expr ts (f + 3) pos = .ok (e, q) := by
  simp only [ascribe_expr, h, bind_ok, peek_eq hq]
  rfl

theorem product_of_apply {ts : List Token} {pos : Nat} {e : PartialExpr} {q : Nat} (f : Nat)
    (h : apply_expr ts (f + 2) pos = .ok (e, q)) (hq : ts.get? q = some .TEndOfInput) :
    product_expr ts (f + 4) pos = .ok (e, q) := by
  simp only [product_expr, ascribe_of_apply f h hq, bind_ok, product_loop_exit _ _ hq]

theorem sum_of_apply {ts : List Token} {pos : Nat} {e : PartialExpr} {q : Nat} (f : Nat)
    (h : apply_expr ts (f + 2) pos = .ok (e, q)) (hq : ts.get? q = some .TEndOfInput) :
    sum_expr ts (f + 5) pos = .ok (e, q) := by
  simp only [sum_expr, product_of_apply f h hq, bind_ok, sum_loop_exit _ _ hq]

theorem comparison_of_apply {ts : List Token} {pos : Nat} {e : PartialExpr} {q : Nat} (f : Nat)
    (h : apply_expr ts (f + 2) pos = .ok (e, q)) (hq : ts.get? q = some .TEndOfInput) :
    comparison_expr ts (f + 6) pos = .ok (e, q) := by
  simp only [comparison_expr, sum_of_apply f h hq, bind_ok, peek_eq hq]
  rfl

theorem equality_of_apply {ts : List Token} {pos : Nat} {e : PartialExpr} {q : Nat} (f : Nat)
    (h : apply_expr ts (f + 2) pos = .ok (e, q)) (hq : ts.get? q = some .TEndOfInput) :
    equality_expr ts (f + 7) pos = .ok (e, q) := by
  simp only [equality_expr, comparison_of_apply f h hq, bind_ok, peek_eq hq]
  rfl

theorem bitwise_and_of_apply {ts : List Token} {pos : Nat} {e : PartialExpr} {q : Nat} (f : Nat)
    (h : apply_expr ts (f + 2) pos = .ok (e, q)) (hq : ts.get? q = some .TEndOfInput) :
    bitwise_and_expr ts (f + 8) pos = .ok (e, q) := by
  simp only [bitwise_and_expr, equality_of_apply f h hq, bind_ok, bitwise_and_loop_exit _ _ hq]

theorem xor_of_apply {ts : List Token} {pos : Nat} {e : PartialExpr} {q : Nat} (f : Nat)
    (h : apply_expr ts (f + 2) pos = .ok (e, q)) (hq : ts.get? q = some .TEndOfInput) :
    xor_expr ts (f + 9) pos = .ok (e, q) := by
  simp only [xor_expr, bitwise_and_of_apply f h hq, bind_ok, xor_loop_exit _ _ hq]

theorem bitwise_or_of_apply {ts : List Token} {pos : Nat} {e : PartialExpr} {q : Nat} (f : Nat)
    (h : apply_expr ts (f + 2) pos = .ok (e, q)) (hq : ts.get? q = some .TEndOfInput) :
    bitwise_or_expr ts (f + 10) pos = .ok (e, q) := by
  simp only [bitwise_or_expr, xor_of_apply f h hq, bind_ok, bitwise_or_loop_exit _ _ hq]

theorem logical_and_of_apply {ts : List Token} {pos : Nat} {e : PartialExpr} {q : Nat} (f : Nat)
    (h : apply_expr ts (f + 2) pos = .ok (e, q)) (hq : ts.get? q = some .TEndOfInput) :
    logical_and_expr ts (f + 11) pos = .ok (e, q) := by
  simp only [logical_and_expr, bitwise_or_of_apply f h hq, bind_ok, logical_and_loop_exit _ _ hq]

theorem logical_or_of_apply {ts : List Token} {pos : Nat} {e : PartialExpr} {q : Nat} (f : Nat)
    (h : apply_expr ts (f + 2) pos = .ok (e, q)) (hq : ts.get? q = some .TEndOfInput) :
    logical_or_expr ts (f + 12) pos = .ok (e, q) := by
  simp only [logical_or_expr, logical_and_of_apply f h hq, bind_ok, logical_or_loop_exit _ _ hq]

theorem operator_of_apply {ts : List Token} {pos : Nat} {e : PartialExpr} {q : Nat} (f : Nat)
    (h : apply_expr ts (f + 2) pos = .ok (e, q)) (hq : ts.get? q = some .TEndOfInput) :
    operator_expr ts (f + 13) pos = .ok (e, q) := by
  simp only [operator_expr, logical_or_of_apply f h hq]

/-- A finished `apply_expr` followed by the EndOfInput sentinel climbs the
whole precedence chain unchanged, provided the leading token selects the
operator branch of `Parser::expr`. -/
theorem expr_of_apply {ts : List Token} {pos : Nat} {e : PartialExpr} {q : Nat} {t0 : Token}
    (f : Nat) (h0 : ts.get? pos = some t0) (hn1 : t0 ≠ .TLet) (hn2 : t0 ≠ .TBar)
    (hn3 : t0 ≠ .TLogicalOr)
    (h : apply_expr ts (f + 2) pos = .ok (e, q)) (hq : ts.get? q = some .TEndOfInput) :
    expr ts (f + 14) pos = .ok (e, q) := by
  simp only [expr, peek_eq h0, bind_ok]
  rw [if_neg hn1, if_neg (by simp [hn2, hn3])]
  exact operator_of_apply f h hq

/-- Error propagation up the precedence chain, with the same fuel
bookkeeping as the success ladder. -/
theorem ascribe_of_apply_err {ts : List Token} {pos : Nat} {e : PErr} (f : Nat)
    (h : apply_expr ts (f + 2) pos = .error e) : ascribe_expr ts (f + 3) pos = .error e := by
  simp only [ascribe_expr, h, bind_err]

theorem product_of_apply_err {ts : List Token} {pos : Nat} {e : PErr} (f : Nat)
    (h : apply_expr ts (f + 2) pos = .error e) : product_expr ts (f + 4) pos = .error e := by
  simp only [product_expr, ascribe_of_apply_err f h, bind_err]

theorem sum_of_apply_err {ts : List Token} {pos : Nat} {e : PErr} (f : Nat)
    (h : apply_expr ts (f + 2) pos = .error e) : sum_expr ts (f + 5) pos = .error e := by
  simp only [sum_expr, product_of_apply_err f h, bind_err]

theorem comparison_of_apply_err {ts : List Token} {pos : Nat} {e : PErr} (f : Nat)
    (h : apply_expr ts (f + 2) pos = .error e) : comparison_expr ts (f + 6) pos = .error e := by
  simp only [comparison_expr, sum_of_apply_err f h, bind_err]

theorem equality_of_apply_err {ts : List Token} {pos : Nat} {e : PErr} (f : Nat)
    (h : apply_expr ts (f + 2) pos = .error e) : equality_expr ts (f + 7) pos = .error e := by
  simp only [equality_expr, comparison_of_apply_err f h, bind_err]

theorem bitwise_and_of_apply_err {ts : List Token} {pos : Nat} {e : PErr} (f : Nat)
    (h : apply_expr ts (f + 2) pos = .error e) : bitwise_and_expr ts (f + 8) pos = .error e := by
  simp only [bitwise_and_expr, equality_of_apply_err f h, bind_err]

theorem xor_of_apply_err {ts : List Token} {pos : Nat} {e : PErr} (f : Nat)
    (h : apply_expr ts (f + 2) pos = .error e) : xor_expr ts (f + 9) pos = .error e := by
  simp only [xor_expr, bitwise_and_of_apply_err f h, bind_err]

theorem bitwise_or_of_apply_err {ts : List Token} {pos : Nat} {e : PErr} (f : Nat)
    (h : apply_expr ts (f + 2) pos = .error e) : bitwise_or_expr ts (f + 10) pos = .error e := by
  simp only [bitwise_or_expr, xor_of_apply_err f h, bind_err]

theorem logical_and_of_apply_err {ts : List Token} {pos : Nat} {e : PErr} (f : Nat)
    (h : apply_expr ts (f + 2) pos = .error e) : logical_and_expr ts (f + 11) pos = .error e := by
  simp only [logical_and_expr, bitwise_or_of_apply_err f h, bind_err]

theorem logical_or_of_apply_err {ts : List Token} {pos : Nat} {e : PErr} (f : Nat)
    (h : apply_expr ts (f + 2) pos = .error e) : logical_or_expr ts (f + 12) pos = .error e := by
  simp only [logical_or_expr, logical_and_of_apply_err f h, bind_err]

theorem operator_of_apply_err {ts : List Token} {pos : Nat} {e : PErr} (f : Nat)
    (h : apply_expr ts (f + 2) pos = .error e) : operator_expr ts (f + 13) pos = .error e := by
  simp only [operator_expr, logical_or_of_apply_err f h]

theorem expr_of_apply_err {ts : List Token} {pos : Nat} {e : PErr} {t0 : Token} (f : Nat)
    (h0 : ts.get? pos = some t0) (hn1 : t0 ≠ .TLet) (hn2 : t0 ≠ .TBar) (hn3 : t0 ≠ .TLogicalOr)
    (h : apply_expr ts (f + 2) pos = .error e) : expr ts (f + 14) pos = .error e := by
  simp only [expr, peek_eq h0, bind_ok]
  rw [if_neg hn1, if_neg (by simp [hn2, hn3])]
  exact operator_of_apply_err f h

theorem endCheck_ok_of_done {α : Type} {ts : List Token} {run : Except PErr (α × Nat)}
    {v : α} {pos : Nat} (h : run = .ok (v, pos)) (hd : is_done ts pos = true) :
    endCheck ts run = .ok v := by
  subst h
  unfold endCheck
  simp [hd]

theorem endCheck_err {α : Type} {ts : List Token} {run : Except PErr (α × Nat)} {e : PErr}
    (h : run = .error e) : endCheck ts run = (.error e : Except PErr α) := by
  subst h
  rfl

theorem get?_of_drop {ts : List Token} {pos : Nat} {l : List Token} (h : ts.drop pos = l)
    (j : Nat) : ts.get? (pos + j) = l.get? j := by
  rw [List.get?_eq_getElem?, List.get?_eq_getElem?, ← h, List.getElem?_drop]

theorem chainToks2_head (items : List (Token × String)) :
    ∃ t, (chainToks2 items).get? 0 = some t ∧
      (t = Token.TEndOfInput ∨ ∃ q, q ∈ items ∧ t = q.1) := by
  cases items with
  | nil => exact ⟨.TEndOfInput, rfl, Or.inl rfl⟩
  | cons p rest => exact ⟨p.1, rfl, Or.inr ⟨p, by simp, rfl⟩⟩

theorem chainToks2_length (items : List (Token × String)) :
    (chainToks2 items).length = 2 * items.length + 1 := by
  induction items with
  | nil => rfl
  | cons p rest ih =>
    simp only [chainToks2, List.length_cons, ih]
    omega

theorem chainToks2_getLast (items : List (Token × String)) :
    (chainToks2 items).get? (2 * items.length) = some .TEndOfInput := by
  induction items with
  | nil => rfl
  | cons p rest ih =>
    have h2 : 2 * (p :: rest).length = 2 * rest.length + 1 + 1 := by
      simp [List.length_cons]
      omega
    rw [h2]
    simpa [chainToks2] using ih

theorem chainToks_head (op : Token) (ys : List String) :
    ∃ t, (chainToks op ys).get? 0 = some t ∧ (t = op ∨ t = .TEndOfInput) := by
  cases ys with
  | nil => exact ⟨.TEndOfInput, rfl, Or.inr rfl⟩
  | cons y rest => exact ⟨op, rfl, Or.inl rfl⟩

theorem chainToks_length (op : Token) (ys : List String) :
    (chainToks op ys).length = 2 * ys.length + 1 := by
  induction ys with
  | nil => rfl
  | cons y rest ih =>
    simp only [chainToks, List.length_cons, ih]
    omega

theorem chainToks_getLast (op : Token) (ys : List String) :
    (chainToks op ys).get? (2 * ys.length) = some .TEndOfInput := by
  induction ys with
  | nil => rfl
  | cons y rest ih =>
    have h2 : 2 * (y :: rest).length = 2 * rest.length + 1 + 1 := by
      simp [List.length_cons]
      omega
    rw [h2]
    simpa [chainToks] using ih

/-- Generalised loop exits: a loop stops on any token other than its own. -/
theorem logical_or_loop_stop {ts : List Token} {pos : Nat} {t : Token} (f : Nat)
    (res : PartialExpr) (hq : ts.get? pos = some t) (hne : t ≠ .TLogicalOr) :
    logical_or_loop ts (f + 1) res pos = .ok (res, pos) := by
  simp only [logical_or_loop, peek_eq hq, bind_ok]
  rw [if_neg hne]

theorem logical_and_loop_stop {ts : List Token} {pos : Nat} {t : Token} (f : Nat)
    (res : PartialExpr) (hq : ts.get? pos = some t) (hne : t ≠ .TLogicalAnd) :
    logical_and_loop ts (f + 1) res pos = .ok (res, pos) := by
  simp only [logical_and_loop, peek_eq hq, bind_ok]
  rw [if_neg hne]

theorem bitwise_or_loop_stop {ts : List Token} {pos : Nat} {t : Token} (f : Nat)
    (res : PartialExpr) (hq : ts.get? pos = some t) (hne : t ≠ .TBar) :
    bitwise_or_loop ts (f + 1) res pos = .ok (res, pos) := by
  simp only [bitwise_or_loop, peek_eq hq, bind_ok]
  rw [if_neg hne]

theorem xor_loop_stop {ts : List Token} {pos : Nat} {t : Token} (f : Nat)
    (res : PartialExpr) (hq : ts.get? pos = some t) (hne : t ≠ .TXor) :
    xor_loop ts (f + 1) res pos = .ok (res, pos) := by
  simp only [xor_loop, peek_eq hq, bind_ok]
  rw [if_neg hne]

theorem bitwise_and_loop_stop {ts : List Token} {pos : Nat} {t : Token} (f : Nat)
    (res : PartialExpr) (hq : ts.get? pos = some t) (hne : t ≠ .TBitwiseAnd) :
    bitwise_and_loop ts (f + 1) res pos = .ok (res, pos) := by
  simp only [bitwise_and_loop, peek_eq hq, bind_ok]
  rw [if_neg hne]

theorem sum_loop_stop {ts : List Token} {pos : Nat} {t : Token} (f : Nat)
    (res : PartialExpr) (hq : ts.get? pos = some t) (h1 : t ≠ .TPlus) (h2 : t ≠ .TMinus) :
    sum_loop ts (f + 1) res pos = .ok (res, pos) := by
  simp only [sum_loop, peek_eq hq, bind_ok]
  rw [if_neg (by simp [h1, h2])]

theorem product_loop_stop {ts : List Token} {pos : Nat} {t : Token} (f : Nat)
    (res : PartialExpr) (hq : ts.get? pos = some t) (h1 : t ≠ .TTimes) (h2 : t ≠ .TDivide)
    (h3 : t ≠ .TModulo) : product_loop ts (f + 1) res pos = .ok (res, pos) := by
  simp only [product_loop, peek_eq hq, bind_ok]
  rw [if_neg (by simp [h1, h2, h3])]

theorem apply_loop_stop {ts : List Token} {pos : Nat} {t : Token} (f : Nat)
    (res : PartialExpr) (hq : ts.get? pos = some t) (h1 : t ≠ .TDot) (h2 : t ≠ .TOpenParen) :
    apply_loop ts (f + 1) res pos = .ok (res, pos) := by
  simp only [apply_loop, peek_eq hq, bind_ok]
  rw [if_neg (by simp [h1, h2])]

/-- The success ladder again, stopping on any non-continuation token. -/
theorem ascribe_of_apply_stop {ts : List Token} {pos : Nat} {e : PartialExpr} {q : Nat}
    {t : Token} (f : Nat) (h : apply_expr ts (f + 2) pos = .ok (e, q))
    (hq : ts.get? q = some t) (hs : StopAscribe t) : ascribe_expr ts (f + 3) pos = .ok (e, q) := by
  simp only [ascribe_expr, h, bind_ok, peek_eq hq]
  rw [if_neg hs.1]

theorem product_of_apply_stop {ts : List Token} {pos : Nat} {e : PartialExpr} {q : Nat}
    {t : Token} (f : Nat) (h : apply_expr ts (f + 2) pos = .ok (e, q))
    (hq : ts.get? q = some t) (hs : StopProduct t) : product_expr ts (f + 4) pos = .ok (e, q) := by
  simp only [product_expr, ascribe_of_apply_stop f h hq hs.1, bind_ok,
    product_loop_stop _ _ hq hs.2.1 hs.2.2.1 hs.2.2.2]

theorem sum_of_apply_stop {ts : List Token} {pos : Nat} {e : PartialExpr} {q : Nat}
    {t : Token} (f : Nat) (h : apply_expr ts (f + 2) pos = .ok (e, q))
    (hq : ts.get? q = some t) (hs : StopSum t) : sum_expr ts (f + 5) pos = .ok (e, q) := by
  simp only [sum_expr, product_of_apply_stop f h hq hs.1, bind_ok,
    sum_loop_stop _ _ hq hs.2.1 hs.2.2]

theorem comparison_of_apply_stop {ts : List Token} {pos : Nat} {e : PartialExpr} {q : Nat}
    {t : Token} (f : Nat) (h : apply_expr ts (f + 2) pos = .ok (e, q))
    (hq : ts.get? q = some t) (hs : StopCmp t) : comparison_expr ts (f + 6) pos = .ok (e, q) := by
  simp only [comparison_expr, sum_of_apply_stop f h hq hs.1, bind_ok, peek_eq hq]
  rw [if_neg (by simp [hs.2.1, hs.2.2.1, hs.2.2.2.1, hs.2.2.2.2])]

theorem equality_of_apply_stop {ts : List Token} {pos : Nat} {e : PartialExpr} {q : Nat}
    {t : Token} (f : Nat) (h : apply_expr ts (f + 2) pos = .ok (e, q))
    (hq : ts.get? q = some t) (hs : StopEq t) : equality_expr ts (f + 7) pos = .ok (e, q) := by
  simp only [equality_expr, comparison_of_apply_stop f h hq hs.1, bind_ok, peek_eq hq]
  rw [if_neg (by simp [hs.2.1, hs.2.2])]

theorem bitwise_and_of_apply_stop {ts : List Token} {pos : Nat} {e : PartialExpr} {q : Nat}
    {t : Token} (f : Nat) (h : apply_expr ts (f + 2) pos = .ok (e, q))
    (hq : ts.get? q = some t) (hs : StopBand t) :
    bitwise_and_expr ts (f + 8) pos = .ok (e, q) := by
  simp only [bitwise_and_expr, equality_of_apply_stop f h hq hs.1, bind_ok,
    bitwise_and_loop_stop _ _ hq hs.2]

theorem xor_of_apply_stop {ts : List Token} {pos : Nat} {e : PartialExpr} {q : Nat}
    {t : Token} (f : Nat) (h : apply_expr ts (f + 2) pos = .ok (e, q))
    (hq : ts.get? q = some t) (hs : StopXor t) : xor_expr ts (f + 9) pos = .ok (e, q) := by
  simp only [xor_expr, bitwise_and_of_apply_stop f h hq hs.1, bind_ok,
    xor_loop_stop _ _ hq hs.2]

theorem bitwise_or_of_apply_stop {ts : List Token} {pos : Nat} {e : PartialExpr} {q : Nat}
    {t : Token} (f : Nat) (h : apply_expr ts (f + 2) pos = .ok (e, q))
    (hq : ts.get? q = some t) (hs : StopBor t) : bitwise_or_expr ts (f + 10) pos = .ok (e, q) := by
  simp only [bitwise_or_expr, xor_of_apply_stop f h hq hs.1, bind_ok,
    bitwise_or_loop_stop _ _ hq hs.2]

theorem logical_and_of_apply_stop {ts : List Token} {pos : Nat} {e : PartialExpr} {q : Nat}
    {t : Token} (f : Nat) (h : apply_expr ts (f + 2) pos = .ok (e, q))
    (hq : ts.get? q = some t) (hs : StopAnd t) :
    logical_and_expr ts (f + 11) pos = .ok (e, q) := by
  simp only [logical_and_expr, bitwise_or_of_apply_stop f h hq hs.1, bind_ok,
    logical_and_loop_stop _ _ hq hs.2]

/-- An identifier token parses through `leaf_expr` and the apply chain. -/
theorem ident_apply_stop {ts : List Token} {pos : Nat} {x : String} {t : Token} (f : Nat)
    (h0 : ts.get? pos = some (.TIdent x)) (hq : ts.get? (pos + 1) = some t)
    (h1 : t ≠ .TDot) (h2 : t ≠ .TOpenParen) :
    apply_expr ts (f + 2) pos = .ok (identE x, pos + 1) := by
  have hleaf : leaf_expr ts (f + 1) pos = .ok (identE x, pos + 1) := by
    simp only [leaf_expr, nextT_eq h0, bind_ok, identE, expr_box]
  simp only [apply_expr, hleaf, bind_ok]
  exact apply_loop_stop f _ hq h1 h2

/-- A `||` chain left-folds through the `logical_or_loop`. -/
theorem logical_or_chain (ts : List Token) (ys : List String) :
    ∀ (res : PartialExpr) (pos fuel : Nat),
      ts.drop pos = chainToks .TLogicalOr ys →
      logical_or_loop ts (12 * ys.length + fuel + 1) res pos
        = .ok (ys.foldl (fun acc y => binE .LogicalOr acc (identE y)) res,
            pos + 2 * ys.length) := by
  induction ys with
  | nil =>
    intro res pos fuel hdrop
    have hq : ts.get? pos = some .TEndOfInput := by
      simpa using get?_of_drop hdrop 0
    simpa using logical_or_loop_exit (12 * 0 + fuel) res hq
  | cons y rest ih =>
    intro res pos fuel hdrop
    have h0 : ts.get? pos = some .TLogicalOr := by
      simpa [chainToks] using get?_of_drop hdrop 0
    have h1 : ts.get? (pos + 1) = some (.TIdent y) := by
      simpa [chainToks] using get?_of_drop hdrop 1
    have hdrop2 : ts.drop (pos + 2) = chainToks .TLogicalOr rest := by
      have h4 : List.drop 2 (List.drop pos ts) = chainToks .TLogicalOr rest := by
        rw [hdrop]
        rfl
      rw [List.drop_drop] at h4
      exact h4
    obtain ⟨t2, ht2, hcase⟩ := chainToks_head .TLogicalOr rest
    have h2 : ts.get? (pos + 1 + 1) = some t2 := by
      have h3 := get?_of_drop hdrop2 0
      rw [Nat.add_zero] at h3
      rw [show pos + 1 + 1 = pos + 2 by omega, h3, ht2]
    have hstop : StopAnd t2 := by
      rcases hcase with rfl | rfl <;>
        simp [StopAnd, StopBor, StopXor, StopBand, StopEq, StopCmp, StopSum, StopProduct,
          StopAscribe]
    have hand : logical_and_expr ts (12 * rest.length + fuel + 12) (pos + 1)
        = .ok (identE y, pos + 1 + 1) := by
      have h5 := logical_and_of_apply_stop (12 * rest.length + fuel + 1)
        (ident_apply_stop (12 * rest.length + fuel + 1) h1 h2
          hstop.1.1.1.1.1.1.1.1.2.1 hstop.1.1.1.1.1.1.1.1.2.2) h2 hstop
      rw [show 12 * rest.length + fuel + 1 + 11 = 12 * rest.length + fuel + 12 by omega] at h5
      exact h5
    have ih' := ih (binE .LogicalOr res (identE y)) (pos + 1 + 1) (fuel + 11)
      (by rw [show pos + 1 + 1 = pos + 2 by omega]; exact hdrop2)
    rw [show 12 * rest.length + (fuel + 11) + 1 = 12 * rest.length + fuel + 12 by omega] at ih'
    simp only [binE] at ih'
    rw [show 12 * (y :: rest).length + fuel + 1 = (12 * rest.length + fuel + 12) + 1 by
      simp only [List.length_cons]
      omega]
    generalize hG : (12 * rest.length + fuel + 12 : Nat) = G
    rw [hG] at hand ih'
    simp only [logical_or_loop, peek_eq h0, bind_ok, if_true]
    simp only [consume_eq h0, bind_ok, hand, ih']
    simp only [List.foldl_cons, List.length_cons, binE]
    rw [show pos + 1 + 1 + 2 * rest.length = pos + 2 * (rest.length + 1) by omega]


/-- A `&&` chain left-folds through the `logical_and_loop`. -/
theorem logical_and_chain (ts : List Token) (ys : List String) :
    ∀ (res : PartialExpr) (pos fuel : Nat),
      ts.drop pos = chainToks .TLogicalAnd ys →
      logical_and_loop ts (11 * ys.length + fuel + 1) res pos
        = .ok (ys.foldl (fun acc y => binE .LogicalAnd acc (identE y)) res,
            pos + 2 * ys.length) := by
  induction ys with
  | nil =>
    intro res pos fuel hdrop
    have hq : ts.get? pos = some .TEndOfInput := by
      simpa using get?_of_drop hdrop 0
    simpa using logical_and_loop_exit (11 * 0 + fuel) res hq
  | cons y rest ih =>
    intro res pos fuel hdrop
    have h0 : ts.get? pos = some .TLogicalAnd := by
      simpa [chainToks] using get?_of_drop hdrop 0
    have h1 : ts.get? (pos + 1) = some (.TIdent y) := by
      simpa [chainToks] using get?_of_drop hdrop 1
    have hdrop2 : ts.drop (pos + 2) = chainToks .TLogicalAnd rest := by
      have h4 : List.drop 2 (List.drop pos ts) = chainToks .TLogicalAnd rest := by
        rw [hdrop]
        rfl
      rw [List.drop_drop] at h4
      exact h4
    obtain ⟨t2, ht2, hcase⟩ := chainToks_head .TLogicalAnd rest
    have h2 : ts.get? (pos + 1 + 1) = some t2 := by
      have h3 := get?_of_drop hdrop2 0
      rw [Nat.add_zero] at h3
      rw [show pos + 1 + 1 = pos + 2 by omega, h3, ht2]
    have hstop : StopBor t2 := by
      rcases hcase with rfl | rfl <;>
        simp [StopBor, StopXor, StopBand, StopEq, StopCmp, StopSum, StopProduct, StopAscribe]
    have hno : t2 ≠ Token.TDot ∧ t2 ≠ Token.TOpenParen := by
      rcases hcase with rfl | rfl <;> simp
    have hand : bitwise_or_expr ts (11 * rest.length + fuel + 11) (pos + 1)
        = .ok (identE y, pos + 1 + 1) := by
      have h5 := bitwise_or_of_apply_stop (11 * rest.length + fuel + 1)
        (ident_apply_stop (11 * rest.length + fuel + 1) h1 h2 hno.1 hno.2) h2 hstop
      rw [show 11 * rest.length + fuel + 1 + 10 = 11 * rest.length + fuel + 11 by
        omega] at h5
      exact h5
    have ih' := ih (binE .LogicalAnd res (identE y)) (pos + 1 + 1) (fuel + 10)
      (by rw [show pos + 1 + 1 = pos + 2 by omega]; exact hdrop2)
    rw [show 11 * rest.length + (fuel + 10) + 1 = 11 * rest.length + fuel + 11 by
      omega] at ih'
    simp only [binE] at ih'
    rw [show 11 * (y :: rest).length + fuel + 1 = (11 * rest.length + fuel + 11) + 1 by
      simp only [List.length_cons]
      omega]
    generalize hG : (11 * rest.length + fuel + 11 : Nat) = G
    rw [hG] at hand ih'
    simp only [logical_and_loop, peek_eq h0, bind_ok, if_true]
    simp only [consume_eq h0, bind_ok, hand, ih']
    simp only [List.foldl_cons, List.length_cons, binE]
    rw [show pos + 1 + 1 + 2 * rest.length = pos + 2 * (rest.length + 1) by omega]


/-- A `|` chain left-folds through the `bitwise_or_loop`. -/
theorem bitwise_or_chain (ts : List Token) (ys : List String) :
    ∀ (res : PartialExpr) (pos fuel : Nat),
      ts.drop pos = chainToks .TBar ys →
      bitwise_or_loop ts (10 * ys.length + fuel + 1) res pos
        = .ok (ys.foldl (fun acc y => binE .BitwiseOr acc (identE y)) res,
            pos + 2 * ys.length) := by
  induction ys with
  | nil =>
    intro res pos fuel hdrop
    have hq : ts.get? pos = some .TEndOfInput := by
      simpa using get?_of_drop hdrop 0
    simpa using bitwise_or_loop_exit (10 * 0 + fuel) res hq
  | cons y rest ih =>
    intro res pos fuel hdrop
    have h0 : ts.get? pos = some .TBar := by
      simpa [chainToks] using get?_of_drop hdrop 0
    have h1 : ts.get? (pos + 1) = some (.TIdent y) := by
      simpa [chainToks] using get?_of_drop hdrop 1
    have hdrop2 : ts.drop (pos + 2) = chainToks .TBar rest := by
      have h4 : List.drop 2 (List.drop pos ts) = chainToks .TBar rest := by
        rw [hdrop]
        rfl
      rw [List.drop_drop] at h4
      exact h4
    obtain ⟨t2, ht2, hcase⟩ := chainToks_head .TBar rest
    have h2 : ts.get? (pos + 1 + 1) = some t2 := by
      have h3 := get?_of_drop hdrop2 0
      rw [Nat.add_zero] at h3
      rw [show pos + 1 + 1 = pos + 2 by omega, h3, ht2]
    have hstop : StopXor t2 := by
      rcases hcase with rfl | rfl <;>
        simp [StopXor, StopBand, StopEq, StopCmp, StopSum, StopProduct, StopAscribe]
    have hno : t2 ≠ Token.TDot ∧ t2 ≠ Token.TOpenParen := by
      rcases hcase with rfl | rfl <;> simp
    have hand : xor_expr ts (10 * rest.length + fuel + 10) (pos + 1)
        = .ok (identE y, pos + 1 + 1) := by
      have h5 := xor_of_apply_stop (10 * rest.length + fuel + 1)
        (ident_apply_stop (10 * rest.length + fuel + 1) h1 h2 hno.1 hno.2) h2 hstop
      rw [show 10 * rest.length + fuel + 1 + 9 = 10 * rest.length + fuel + 10 by
        omega] at h5
      exact h5
    have ih' := ih (binE .BitwiseOr res (identE y)) (pos + 1 + 1) (fuel + 9)
      (by rw [show pos + 1 + 1 = pos + 2 by omega]; exact hdrop2)
    rw [show 10 * rest.length + (fuel + 9) + 1 = 10 * rest.length + fuel + 10 by
      omega] at ih'
    simp only [binE] at ih'
    rw [show 10 * (y :: rest).length + fuel + 1 = (10 * rest.length + fuel + 10) + 1 by
      simp only [List.length_cons]
      omega]
    generalize hG : (10 * rest.length + fuel + 10 : Nat) = G
    rw [hG] at hand ih'
    simp only [bitwise_or_loop, peek_eq h0, bind_ok, if_true]
    simp only [consume_eq h0, bind_ok, hand, ih']
    simp only [List.foldl_cons, List.length_cons, binE]
    rw [show pos + 1 + 1 + 2 * rest.length = pos + 2 * (rest.length + 1) by omega]


/-- A `^` chain left-folds through the `xor_loop`. -/
theorem xor_chain (ts : List Token) (ys : List String) :
    ∀ (res : PartialExpr) (pos fuel : Nat),
      ts.drop pos = chainToks .TXor ys →
      xor_loop ts (9 * ys.length + fuel + 1) res pos
        = .ok (ys.foldl (fun acc y => binE .Xor acc (identE y)) res,
            pos + 2 * ys.length) := by
  induction ys with
  | nil =>
    intro res pos fuel hdrop
    have hq : ts.get? pos = some .TEndOfInput := by
      simpa using get?_of_drop hdrop 0
    simpa using xor_loop_exit (9 * 0 + fuel) res hq
  | cons y rest ih =>
    intro res pos fuel hdrop
    have h0 : ts.get? pos = some .TXor := by
      simpa [chainToks] using get?_of_drop hdrop 0
    have h1 : ts.get? (pos + 1) = some (.TIdent y) := by
      simpa [chainToks] using get?_of_drop hdrop 1
    have hdrop2 : ts.drop (pos + 2) = chainToks .TXor rest := by
      have h4 : List.drop 2 (List.drop pos ts) = chainToks .TXor rest := by
        rw [hdrop]
        rfl
      rw [List.drop_drop] at h4
      exact h4
    obtain ⟨t2, ht2, hcase⟩ := chainToks_head .TXor rest
    have h2 : ts.get? (pos + 1 + 1) = some t2 := by
      have h3 := get?_of_drop hdrop2 0
      rw [Nat.add_zero] at h3
      rw [show pos + 1 + 1 = pos + 2 by omega, h3, ht2]
    have hstop : StopBand t2 := by
      rcases hcase with rfl | rfl <;>
        simp [StopBand, StopEq, StopCmp, StopSum, StopProduct, StopAscribe]
    have hno : t2 ≠ Token.TDot ∧ t2 ≠ Token.TOpenParen := by
      rcases hcase with rfl | rfl <;> simp
    have hand : bitwise_and_expr ts (9 * rest.length + fuel + 9) (pos + 1)
        = .ok (identE y, pos + 1 + 1) := by
      have h5 := bitwise_and_of_apply_stop (9 * rest.length + fuel + 1)
        (ident_apply_stop (9 * rest.length + fuel + 1) h1 h2 hno.1 hno.2) h2 hstop
      rw [show 9 * rest.length + fuel + 1 + 8 = 9 * rest.length + fuel + 9 by
        omega] at h5
      exact h5
    have ih' := ih (binE .Xor res (identE y)) (pos + 1 + 1) (fuel + 8)
      (by rw [show pos + 1 + 1 = pos + 2 by omega]; exact hdrop2)
    rw [show 9 * rest.length + (fuel + 8) + 1 = 9 * rest.length + fuel + 9 by
      omega] at ih'
    simp only [binE] at ih'
    rw [show 9 * (y :: rest).length + fuel + 1 = (9 * rest.length + fuel + 9) + 1 by
      simp only [List.length_cons]
      omega]
    generalize hG : (9 * rest.length + fuel + 9 : Nat) = G
    rw [hG] at hand ih'
    simp only [xor_loop, peek_eq h0, bind_ok, if_true]
    simp only [consume_eq h0, bind_ok, hand, ih']
    simp only [List.foldl_cons, List.length_cons, binE]
    rw [show pos + 1 + 1 + 2 * rest.length = pos + 2 * (rest.length + 1) by omega]


/-- A `&` chain left-folds through the `bitwise_and_loop`. -/
theorem bitwise_and_chain (ts : List Token) (ys : List String) :
    ∀ (res : PartialExpr) (pos fuel : Nat),
      ts.drop pos = chainToks .TBitwiseAnd ys →
      bitwise_and_loop ts (8 * ys.length + fuel + 1) res pos
        = .ok (ys.foldl (fun acc y => binE .BitwiseAnd acc (identE y)) res,
            pos + 2 * ys.length) := by
  induction ys with
  | nil =>
    intro res pos fuel hdrop
    have hq : ts.get? pos = some .TEndOfInput := by
      simpa using get?_of_drop hdrop 0
    simpa using bitwise_and_loop_exit (8 * 0 + fuel) res hq
  | cons y rest ih =>
    intro res pos fuel hdrop
    have h0 : ts.get? pos = some .TBitwiseAnd := by
      simpa [chainToks] using get?_of_drop hdrop 0
    have h1 : ts.get? (pos + 1) = some (.TIdent y) := by
      simpa [chainToks] using get?_of_drop hdrop 1
    have hdrop2 : ts.drop (pos + 2) = chainToks .TBitwiseAnd rest := by
      have h4 : List.drop 2 (List.drop pos ts) = chainToks .TBitwiseAnd rest := by
        rw [hdrop]
        rfl
      rw [List.drop_drop] at h4
      exact h4
    obtain ⟨t2, ht2, hcase⟩ := chainToks_head .TBitwiseAnd rest
    have h2 : ts.get? (pos + 1 + 1) = some t2 := by
      have h3 := get?_of_drop hdrop2 0
      rw [Nat.add_zero] at h3
      rw [show pos + 1 + 1 = pos + 2 by omega, h3, ht2]
    have hstop : StopEq t2 := by
      rcases hcase with rfl | rfl <;>
        simp [StopEq, StopCmp, StopSum, StopProduct, StopAscribe]
    have hno : t2 ≠ Token.TDot ∧ t2 ≠ Token.TOpenParen := by
      rcases hcase with rfl | rfl <;> simp
    have hand : equality_expr ts (8 * rest.length + fuel + 8) (pos + 1)
        = .ok (identE y, pos + 1 + 1) := by
      have h5 := equality_of_apply_stop (8 * rest.length + fuel + 1)
        (ident_apply_stop (8 * rest.length + fuel + 1) h1 h2 hno.1 hno.2) h2 hstop
      rw [show 8 * rest.length + fuel + 1 + 7 = 8 * rest.length + fuel + 8 by
        omega] at h5
      exact h5
    have ih' := ih (binE .BitwiseAnd res (identE y)) (pos + 1 + 1) (fuel + 7)
      (by rw [show pos + 1 + 1 = pos + 2 by omega]; exact hdrop2)
    rw [show 8 * rest.length + (fuel + 7) + 1 = 8 * rest.length + fuel + 8 by
      omega] at ih'
    simp only [binE] at ih'
    rw [show 8 * (y :: rest).length + fuel + 1 = (8 * rest.length + fuel + 8) + 1 by
      simp only [List.length_cons]
      omega]
    generalize hG : (8 * rest.length + fuel + 8 : Nat) = G
    rw [hG] at hand ih'
    simp only [bitwise_and_loop, peek_eq h0, bind_ok, if_true]
    simp only [consume_eq h0, bind_ok, hand, ih']
    simp only [List.foldl_cons, List.length_cons, binE]
    rw [show pos + 1 + 1 + 2 * rest.length = pos + 2 * (rest.length + 1) by omega]


/-- A `+`/`-` chain left-folds through the `sum_loop`, with the operator of
each link chosen by the token. -/
theorem sum_chain (ts : List Token) (items : List (Token × String)) :
    ∀ (res : PartialExpr) (pos fuel : Nat),
      ts.drop pos = chainToks2 items →
      (∀ p, p ∈ items → p.1 = Token.TPlus ∨ p.1 = Token.TMinus) →
      sum_loop ts (5 * items.length + fuel + 1) res pos
        = .ok (items.foldl (fun acc p => binE (sumOp p.1) acc (identE p.2)) res,
            pos + 2 * items.length) := by
  induction items with
  | nil =>
    intro res pos fuel hdrop _
    have hq : ts.get? pos = some .TEndOfInput := by
      simpa using get?_of_drop hdrop 0
    simpa using sum_loop_exit (5 * 0 + fuel) res hq
  | cons p rest ih =>
    obtain ⟨op, y⟩ := p
    intro res pos fuel hdrop hops
    have hopm : op = Token.TPlus ∨ op = Token.TMinus := hops (op, y) (by simp)
    have h0 : ts.get? pos = some op := by
      simpa [chainToks2] using get?_of_drop hdrop 0
    have h1 : ts.get? (pos + 1) = some (.TIdent y) := by
      simpa [chainToks2] using get?_of_drop hdrop 1
    have hdrop2 : ts.drop (pos + 2) = chainToks2 rest := by
      have h4 : List.drop 2 (List.drop pos ts) = chainToks2 rest := by
        rw [hdrop]
        rfl
      rw [List.drop_drop] at h4
      exact h4
    obtain ⟨t2, ht2, hcase⟩ := chainToks2_head rest
    have h2 : ts.get? (pos + 1 + 1) = some t2 := by
      have h3 := get?_of_drop hdrop2 0
      rw [Nat.add_zero] at h3
      rw [show pos + 1 + 1 = pos + 2 by omega, h3, ht2]
    have hstop : StopProduct t2 := by
      rcases hcase with rfl | ⟨q, hq2, rfl⟩
      · simp [StopProduct, StopAscribe]
      · rcases hops q (List.mem_cons_of_mem _ hq2) with h | h <;> rw [h] <;>
          simp [StopProduct, StopAscribe]
    have hno : t2 ≠ Token.TDot ∧ t2 ≠ Token.TOpenParen := by
      rcases hcase with rfl | ⟨q, hq2, rfl⟩
      · simp
      · rcases hops q (List.mem_cons_of_mem _ hq2) with h | h <;> rw [h] <;> simp
    have hand : product_expr ts (5 * rest.length + fuel + 5) (pos + 1)
        = .ok (identE y, pos + 1 + 1) := by
      have h5 := product_of_apply_stop (5 * rest.length + fuel + 1)
        (ident_apply_stop (5 * rest.length + fuel + 1) h1 h2 hno.1 hno.2) h2 hstop
      rw [show 5 * rest.length + fuel + 1 + 4 = 5 * rest.length + fuel + 5 by omega] at h5
      exact h5
    have ih' := ih (binE (sumOp op) res (identE y)) (pos + 1 + 1) (fuel + 4)
      (by rw [show pos + 1 + 1 = pos + 2 by omega]; exact hdrop2)
      (fun q hq2 => hops q (List.mem_cons_of_mem _ hq2))
    rw [show 5 * rest.length + (fuel + 4) + 1 = 5 * rest.length + fuel + 5 by omega] at ih'
    simp only [binE] at ih'
    rw [show 5 * ((op, y) :: rest).length + fuel + 1 = (5 * rest.length + fuel + 5) + 1 by
      simp only [List.length_cons]
      omega]
    generalize hG : (5 * rest.length + fuel + 5 : Nat) = G
    rw [hG] at hand ih'
    rcases hopm with rfl | rfl
    · have heq : (Token.TPlus = Token.TPlus) = True := by simp
      simp only [sumOp, heq, if_true] at ih'
      simp only [sum_loop, peek_eq h0, bind_ok]
      simp only [true_or, or_true, if_true]
      simp only [nextT_eq h0, bind_ok, heq, if_true]
      simp only [hand, bind_ok, ih']
      simp only [List.foldl_cons, List.length_cons, binE, sumOp, heq, if_true]
      rw [show pos + 1 + 1 + 2 * rest.length = pos + 2 * (rest.length + 1) by omega]
    · have hne : (Token.TMinus = Token.TPlus) = False := by simp
      simp only [sumOp, hne, if_false] at ih'
      simp only [sum_loop, peek_eq h0, bind_ok]
      simp only [true_or, or_true, if_true]
      simp only [nextT_eq h0, bind_ok, hne, if_false]
      simp only [hand, bind_ok, ih']
      simp only [List.foldl_cons, List.length_cons, binE, sumOp, hne, if_false]
      rw [show pos + 1 + 1 + 2 * rest.length = pos + 2 * (rest.length + 1) by omega]

/-- A `*`/`/`/`%` chain left-folds through the `product_loop`, with the
operator of each link chosen by the token. -/
theorem product_chain (ts : List Token) (items : List (Token × String)) :
    ∀ (res : PartialExpr) (pos fuel : Nat),
      ts.drop pos = chainToks2 items →
      (∀ p, p ∈ items → p.1 = Token.TTimes ∨ p.1 = Token.TDivide ∨ p.1 = Token.TModulo) →
      product_loop ts (4 * items.length + fuel + 1) res pos
        = .ok (items.foldl (fun acc p => binE (prodOp p.1) acc (identE p.2)) res,
            pos + 2 * items.length) := by
  induction items with
  | nil =>
    intro res pos fuel hdrop _
    have hq : ts.get? pos = some .TEndOfInput := by
      simpa using get?_of_drop hdrop 0
    simpa using product_loop_exit (4 * 0 + fuel) res hq
  | cons p rest ih =>
    obtain ⟨op, y⟩ := p
    intro res pos fuel hdrop hops
    have hopm : op = Token.TTimes ∨ op = Token.TDivide ∨ op = Token.TModulo :=
      hops (op, y) (by simp)
    have h0 : ts.get? pos = some op := by
      simpa [chainToks2] using get?_of_drop hdrop 0
    have h1 : ts.get? (pos + 1) = some (.TIdent y) := by
      simpa [chainToks2] using get?_of_drop hdrop 1
    have hdrop2 : ts.drop (pos + 2) = chainToks2 rest := by
      have h4 : List.drop 2 (List.drop pos ts) = chainToks2 rest := by
        rw [hdrop]
        rfl
      rw [List.drop_drop] at h4
      exact h4
    obtain ⟨t2, ht2, hcase⟩ := chainToks2_head rest
    have h2 : ts.get? (pos + 1 + 1) = some t2 := by
      have h3 := get?_of_drop hdrop2 0
      rw [Nat.add_zero] at h3
      rw [show pos + 1 + 1 = pos + 2 by omega, h3, ht2]
    have hstop : StopAscribe t2 := by
      rcases hcase with rfl | ⟨q, hq2, rfl⟩
      · simp [StopAscribe]
      · rcases hops q (List.mem_cons_of_mem _ hq2) with h | h | h <;> rw [h] <;>
          simp [StopAscribe]
    have hno : t2 ≠ Token.TDot ∧ t2 ≠ Token.TOpenParen := ⟨hstop.2.1, hstop.2.2⟩
    have hand : ascribe_expr ts (4 * rest.length + fuel + 4) (pos + 1)
        = .ok (identE y, pos + 1 + 1) := by
      have h5 := ascribe_of_apply_stop (4 * rest.length + fuel + 1)
        (ident_apply_stop (4 * rest.length + fuel + 1) h1 h2 hno.1 hno.2) h2 hstop
      rw [show 4 * rest.length + fuel + 1 + 3 = 4 * rest.length + fuel + 4 by omega] at h5
      exact h5
    have ih' := ih (binE (prodOp op) res (identE y)) (pos + 1 + 1) (fuel + 3)
      (by rw [show pos + 1 + 1 = pos + 2 by omega]; exact hdrop2)
      (fun q hq2 => hops q (List.mem_cons_of_mem _ hq2))
    rw [show 4 * rest.length + (fuel + 3) + 1 = 4 * rest.length + fuel + 4 by omega] at ih'
    simp only [binE] at ih'
    rw [show 4 * ((op, y) :: rest).length + fuel + 1 = (4 * rest.length + fuel + 4) + 1 by
      simp only [List.length_cons]
      omega]
    generalize hG : (4 * rest.length + fuel + 4 : Nat) = G
    rw [hG] at hand ih'
    rcases hopm with rfl | rfl | rfl <;>
    · simp only [prodOp] at ih'
      simp only [product_loop, peek_eq h0, bind_ok]
      rw [if_pos (by simp)]
      simp only [nextT_eq h0, bind_ok]
      simp only [hand, bind_ok, ih']
      simp only [List.foldl_cons, List.length_cons, binE, prodOp]
      rw [show pos + 1 + 1 + 2 * rest.length = pos + 2 * (rest.length + 1) by omega]


/-- One-step climbs of a finished parse sitting at the EndOfInput sentinel. -/
theorem sum_of_product_eoi {ts : List Token} {pos : Nat} {e : PartialExpr} {q : Nat} (f : Nat)
    (h : product_expr ts (f + 1) pos = .ok (e, q)) (hq : ts.get? q = some .TEndOfInput) :
    sum_expr ts (f + 2) pos = .ok (e, q) := by
  simp only [sum_expr, h, bind_ok, sum_loop_exit f e hq]

theorem comparison_of_sum_eoi {ts : List Token} {pos : Nat} {e : PartialExpr} {q : Nat} (f : Nat)
    (h : sum_expr ts (f + 1) pos = .ok (e, q)) (hq : ts.get? q = some .TEndOfInput) :
    comparison_expr ts (f + 2) pos = .ok (e, q) := by
  simp only [comparison_expr, h, bind_ok, peek_eq hq]
  rw [if_neg (by simp)]

theorem equality_of_comparison_eoi {ts : List Token} {pos : Nat} {e : PartialExpr} {q : Nat}
    (f : Nat) (h : comparison_expr ts (f + 1) pos = .ok (e, q))
    (hq : ts.get? q = some .TEndOfInput) : equality_expr ts (f + 2) pos = .ok (e, q) := by
  simp only [equality_expr, h, bind_ok, peek_eq hq]
  rw [if_neg (by simp)]

theorem bitwise_and_of_equality_eoi {ts : List Token} {pos : Nat} {e : PartialExpr} {q : Nat}
    (f : Nat) (h : equality_expr ts (f + 1) pos = .ok (e, q))
    (hq : ts.get? q = some .TEndOfInput) : bitwise_and_expr ts (f + 2) pos = .ok (e, q) := by
  simp only [bitwise_and_expr, h, bind_ok, bitwise_and_loop_exit f e hq]

theorem xor_of_bitwise_and_eoi {ts : List Token} {pos : Nat} {e : PartialExpr} {q : Nat}
    (f : Nat) (h : bitwise_and_expr ts (f + 1) pos = .ok (e, q))
    (hq : ts.get? q = some .TEndOfInput) : xor_expr ts (f + 2) pos = .ok (e, q) := by
  simp only [xor_expr, h, bind_ok, xor_loop_exit f e hq]

theorem bitwise_or_of_xor_eoi {ts : List Token} {pos : Nat} {e : PartialExpr} {q : Nat}
    (f : Nat) (h : xor_expr ts (f + 1) pos = .ok (e, q))
    (hq : ts.get? q = some .TEndOfInput) : bitwise_or_expr ts (f + 2) pos = .ok (e, q) := by
  simp only [bitwise_or_expr, h, bind_ok, bitwise_or_loop_exit f e hq]

theorem logical_and_of_bitwise_or_eoi {ts : List Token} {pos : Nat} {e : PartialExpr} {q : Nat}
    (f : Nat) (h : bitwise_or_expr ts (f + 1) pos = .ok (e, q))
    (hq : ts.get? q = some .TEndOfInput) : logical_and_expr ts (f + 2) pos = .ok (e, q) := by
  simp only [logical_and_expr, h, bind_ok, logical_and_loop_exit f e hq]

theorem logical_or_of_logical_and_eoi {ts : List Token} {pos : Nat} {e : PartialExpr} {q : Nat}
    (f : Nat) (h : logical_and_expr ts (f + 1) pos = .ok (e, q))
    (hq : ts.get? q = some .TEndOfInput) : logical_or_expr ts (f + 2) pos = .ok (e, q) := by
  simp only [logical_or_expr, h, bind_ok, logical_or_loop_exit f e hq]

theorem operator_of_logical_or_eoi {ts : List Token} {pos : Nat} {e : PartialExpr} {q : Nat}
    (f : Nat) (h : logical_or_expr ts (f + 1) pos = .ok (e, q)) :
    operator_expr ts (f + 2) pos = .ok (e, q) := by
  simp only [operator_expr]
  exact h

theorem expr_of_operator_ident {ts : List Token} {pos : Nat} {e : PartialExpr} {q : Nat}
    {x : String} (f : Nat) (h0 : ts.get? pos = some (.TIdent x))
    (h : operator_expr ts (f + 1) pos = .ok (e, q)) : expr ts (f + 2) pos = .ok (e, q) := by
  simp only [expr, peek_eq h0, bind_ok]
  rw [if_neg (by simp), if_neg (by simp)]
  exact h


/-- An identifier followed by a `||` chain parses to the left fold, all the
way up at `Parser::expr`. -/
theorem logical_or_full (ts : List Token) (x : String) (ys : List String) (pos fuel : Nat)
    (h0 : ts.get? pos = some (.TIdent x))
    (hdrop : ts.drop (pos + 1) = chainToks .TLogicalOr ys) :
    expr ts (12 * ys.length + fuel + 14) pos
      = .ok (ys.foldl (fun acc y => binE .LogicalOr acc (identE y)) (identE x),
          pos + 1 + 2 * ys.length) := by
  obtain ⟨t2, ht2, hcase⟩ := chainToks_head .TLogicalOr ys
  have h2 : ts.get? (pos + 1) = some t2 := by
    have h3 := get?_of_drop hdrop 0
    rw [Nat.add_zero] at h3
    rw [h3, ht2]
  have hstop : StopAnd t2 := by
    rcases hcase with rfl | rfl <;>
      simp [StopAnd, StopBor, StopXor, StopBand, StopEq, StopCmp, StopSum, StopProduct,
        StopAscribe]
  have hno : t2 ≠ Token.TDot ∧ t2 ≠ Token.TOpenParen := by
    rcases hcase with rfl | rfl <;> simp
  have hqf : ts.get? (pos + 1 + 2 * ys.length) = some .TEndOfInput := by
    have h6 := get?_of_drop hdrop (2 * ys.length)
    rw [chainToks_getLast] at h6
    exact h6
  have hoper := logical_and_of_apply_stop (12 * ys.length + fuel)
    (ident_apply_stop (12 * ys.length + fuel) h0 h2 hno.1 hno.2) h2 hstop
  have hloop := logical_or_chain ts ys (identE x) (pos + 1) (fuel + 10) hdrop
  rw [show 12 * ys.length + (fuel + 10) + 1 = 12 * ys.length + fuel + 11 by omega]
    at hloop
  rw [show 12 * ys.length + fuel + 14 = (12 * ys.length + fuel + 11) + 3 by omega]
  generalize hG : (12 * ys.length + fuel + 11 : Nat) = G
  rw [hG] at hoper hloop
  have hlev : logical_or_expr ts (G + 1) pos
      = .ok (ys.foldl (fun acc y => binE .LogicalOr acc (identE y)) (identE x),
          pos + 1 + 2 * ys.length) := by
    simp only [logical_or_expr, hoper, bind_ok, hloop]
  have hop := operator_of_logical_or_eoi G hlev
  exact expr_of_operator_ident (G + 1) h0 hop

/-- An identifier followed by a `&&` chain parses to the left fold, all the
way up at `Parser::expr`. -/
theorem logical_and_full (ts : List Token) (x : String) (ys : List String) (pos fuel : Nat)
    (h0 : ts.get? pos = some (.TIdent x))
    (hdrop : ts.drop (pos + 1) = chainToks .TLogicalAnd ys) :
    expr ts (11 * ys.length + fuel + 14) pos
      = .ok (ys.foldl (fun acc y => binE .LogicalAnd acc (identE y)) (identE x),
          pos + 1 + 2 * ys.length) := by
  obtain ⟨t2, ht2, hcase⟩ := chainToks_head .TLogicalAnd ys
  have h2 : ts.get? (pos + 1) = some t2 := by
    have h3 := get?_of_drop hdrop 0
    rw [Nat.add_zero] at h3
    rw [h3, ht2]
  have hstop : StopBor t2 := by
    rcases hcase with rfl | rfl <;>
      simp [StopBor, StopXor, StopBand, StopEq, StopCmp, StopSum, StopProduct, StopAscribe]
  have hno : t2 ≠ Token.TDot ∧ t2 ≠ Token.TOpenParen := by
    rcases hcase with rfl | rfl <;> simp
  have hqf : ts.get? (pos + 1 + 2 * ys.length) = some .TEndOfInput := by
    have h6 := get?_of_drop hdrop (2 * ys.length)
    rw [chainToks_getLast] at h6
    exact h6
  have hoper := bitwise_or_of_apply_stop (11 * ys.length + fuel)
    (ident_apply_stop (11 * ys.length + fuel) h0 h2 hno.1 hno.2) h2 hstop
  have hloop := logical_and_chain ts ys (identE x) (pos + 1) (fuel + 9) hdrop
  rw [show 11 * ys.length + (fuel + 9) + 1 = 11 * ys.length + fuel + 10 by omega]
    at hloop
  rw [show 11 * ys.length + fuel + 14 = (11 * ys.length + fuel + 10) + 4 by omega]
  generalize hG : (11 * ys.length + fuel + 10 : Nat) = G
  rw [hG] at hoper hloop
  have hlev : logical_and_expr ts (G + 1) pos
      = .ok (ys.foldl (fun acc y => binE .LogicalAnd acc (identE y)) (identE x),
          pos + 1 + 2 * ys.length) := by
    simp only [logical_and_expr, hoper, bind_ok, hloop]
  have hor := logical_or_of_logical_and_eoi G hlev hqf
  have hop := operator_of_logical_or_eoi (G + 1) hor
  exact expr_of_operator_ident (G + 2) h0 hop

/-- An identifier followed by a `|` chain parses to the left fold, all the
way up at `Parser::expr`. -/
theorem bitwise_or_full (ts : List Token) (x : String) (ys : List String) (pos fuel : Nat)
    (h0 : ts.get? pos = some (.TIdent x))
    (hdrop : ts.drop (pos + 1) = chainToks .TBar ys) :
    expr ts (10 * ys.length + fuel + 14) pos
      = .ok (ys.foldl (fun acc y => binE .BitwiseOr acc (identE y)) (identE x),
          pos + 1 + 2 * ys.length) := by
  obtain ⟨t2, ht2, hcase⟩ := chainToks_head .TBar ys
  have h2 : ts.get? (pos + 1) = some t2 := by
    have h3 := get?_of_drop hdrop 0
    rw [Nat.add_zero] at h3
    rw [h3, ht2]
  have hstop : StopXor t2 := by
    rcases hcase with rfl | rfl <;>
      simp [StopXor, StopBand, StopEq, StopCmp, StopSum, StopProduct, StopAscribe]
  have hno : t2 ≠ Token.TDot ∧ t2 ≠ Token.TOpenParen := by
    rcases hcase with rfl | rfl <;> simp
  have hqf : ts.get? (pos + 1 + 2 * ys.length) = some .TEndOfInput := by
    have h6 := get?_of_drop hdrop (2 * ys.length)
    rw [chainToks_getLast] at h6
    exact h6
  have hoper := xor_of_apply_stop (10 * ys.length + fuel)
    (ident_apply_stop (10 * ys.length + fuel) h0 h2 hno.1 hno.2) h2 hstop
  have hloop := bitwise_or_chain ts ys (identE x) (pos + 1) (fuel + 8) hdrop
  rw [show 10 * ys.length + (fuel + 8) + 1 = 10 * ys.length + fuel + 9 by omega]
    at hloop
  rw [show 10 * ys.length + fuel + 14 = (10 * ys.length + fuel + 9) + 5 by omega]
  generalize hG : (10 * ys.length + fuel + 9 : Nat) = G
  rw [hG] at hoper hloop
  have hlev : bitwise_or_expr ts (G + 1) pos
      = .ok (ys.foldl (fun acc y => binE .BitwiseOr acc (identE y)) (identE x),
          pos + 1 + 2 * ys.length) := by
    simp only [bitwise_or_expr, hoper, bind_ok, hloop]
  have hand := logical_and_of_bitwise_or_eoi G hlev hqf
  have hor := logical_or_of_logical_and_eoi (G + 1) hand hqf
  have hop := operator_of_logical_or_eoi (G + 2) hor
  exact expr_of_operator_ident (G + 3) h0 hop

/-- An identifier followed by a `^` chain parses to the left fold, all the
way up at `Parser::expr`. -/
theorem xor_full (ts : List Token) (x : String) (ys : List String) (pos fuel : Nat)
    (h0 : ts.get? pos = some (.TIdent x))
    (hdrop : ts.drop (pos + 1) = chainToks .TXor ys) :
    expr ts (9 * ys.length + fuel + 14) pos
      = .ok (ys.foldl (fun acc y => binE .Xor acc (identE y)) (identE x),
          pos + 1 + 2 * ys.length) := by
  obtain ⟨t2, ht2, hcase⟩ := chainToks_head .TXor ys
  have h2 : ts.get? (pos + 1) = some t2 := by
    have h3 := get?_of_drop hdrop 0
    rw [Nat.add_zero] at h3
    rw [h3, ht2]
  have hstop : StopBand t2 := by
    rcases hcase with rfl | rfl <;>
      simp [StopBand, StopEq, StopCmp, StopSum, StopProduct, StopAscribe]
  have hno : t2 ≠ Token.TDot ∧ t2 ≠ Token.TOpenParen := by
    rcases hcase with rfl | rfl <;> simp
  have hqf : ts.get? (pos + 1 + 2 * ys.length) = some .TEndOfInput := by
    have h6 := get?_of_drop hdrop (2 * ys.length)
    rw [chainToks_getLast] at h6
    exact h6
  have hoper := bitwise_and_of_apply_stop (9 * ys.length + fuel)
    (ident_apply_stop (9 * ys.length + fuel) h0 h2 hno.1 hno.2) h2 hstop
  have hloop := xor_chain ts ys (identE x) (pos + 1) (fuel + 7) hdrop
  rw [show 9 * ys.length + (fuel + 7) + 1 = 9 * ys.length + fuel + 8 by omega]
    at hloop
  rw [show 9 * ys.length + fuel + 14 = (9 * ys.length + fuel + 8) + 6 by omega]
  generalize hG : (9 * ys.length + fuel + 8 : Nat) = G
  rw [hG] at hoper hloop
  have hlev : xor_expr ts (G + 1) pos
      = .ok (ys.foldl (fun acc y => binE .Xor acc (identE y)) (identE x),
          pos + 1 + 2 * ys.length) := by
    simp only [xor_expr, hoper, bind_ok, hloop]
  have hbor := bitwise_or_of_xor_eoi G hlev hqf
  have hand := logical_and_of_bitwise_or_eoi (G + 1) hbor hqf
  have hor := logical_or_of_logical_and_eoi (G + 2) hand hqf
  have hop := operator_of_logical_or_eoi (G + 3) hor
  exact expr_of_operator_ident (G + 4) h0 hop

/-- An identifier followed by a `&` chain parses to the left fold, all the
way up at `Parser::expr`. -/
theorem bitwise_and_full (ts : List Token) (x : String) (ys : List String) (pos fuel : Nat)
    (h0 : ts.get? pos = some (.TIdent x))
    (hdrop : ts.drop (pos + 1) = chainToks .TBitwiseAnd ys) :
    expr ts (8 * ys.length + fuel + 14) pos
      = .ok (ys.foldl (fun acc y => binE .BitwiseAnd acc (identE y)) (identE x),
          pos + 1 + 2 * ys.length) := by
  obtain ⟨t2, ht2, hcase⟩ := chainToks_head .TBitwiseAnd ys
  have h2 : ts.get? (pos + 1) = some t2 := by
    have h3 := get?_of_drop hdrop 0
    rw [Nat.add_zero] at h3
    rw [h3, ht2]
  have hstop : StopEq t2 := by
    rcases hcase with rfl | rfl <;>
      simp [StopEq, StopCmp, StopSum, StopProduct, StopAscribe]
  have hno : t2 ≠ Token.TDot ∧ t2 ≠ Token.TOpenParen := by
    rcases hcase with rfl | rfl <;> simp
  have hqf : ts.get? (pos + 1 + 2 * ys.length) = some .TEndOfInput := by
    have h6 := get?_of_drop hdrop (2 * ys.length)
    rw [chainToks_getLast] at h6
    exact h6
  have hoper := equality_of_apply_stop (8 * ys.length + fuel)
    (ident_apply_stop (8 * ys.length + fuel) h0 h2 hno.1 hno.2) h2 hstop
  have hloop := bitwise_and_chain ts ys (identE x) (pos + 1) (fuel + 6) hdrop
  rw [show 8 * ys.length + (fuel + 6) + 1 = 8 * ys.length + fuel + 7 by omega]
    at hloop
  rw [show 8 * ys.length + fuel + 14 = (8 * ys.length + fuel + 7) + 7 by omega]
  generalize hG : (8 * ys.length + fuel + 7 : Nat) = G
  rw [hG] at hoper hloop
  have hlev : bitwise_and_expr ts (G + 1) pos
      = .ok (ys.foldl (fun acc y => binE .BitwiseAnd acc (identE y)) (identE x),
          pos + 1 + 2 * ys.length) := by
    simp only [bitwise_and_expr, hoper, bind_ok, hloop]
  have hxor := xor_of_bitwise_and_eoi G hlev hqf
  have hbor := bitwise_or_of_xor_eoi (G + 1) hxor hqf
  have hand := logical_and_of_bitwise_or_eoi (G + 2) hbor hqf
  have hor := logical_or_of_logical_and_eoi (G + 3) hand hqf
  have hop := operator_of_logical_or_eoi (G + 4) hor
  exact expr_of_operator_ident (G + 5) h0 hop

/-- An identifier followed by a mixed `+`/`-` chain parses to the left fold,
with each link's operator chosen by its token, all the way up at `Parser::expr`. -/
theorem sum_full (ts : List Token) (x : String) (items : List (Token × String))
    (pos fuel : Nat) (h0 : ts.get? pos = some (.TIdent x))
    (hdrop : ts.drop (pos + 1) = chainToks2 items)
    (hops : ∀ p, p ∈ items → p.1 = Token.TPlus ∨ p.1 = Token.TMinus) :
    expr ts (5 * items.length + fuel + 14) pos
      = .ok (items.foldl (fun acc p => binE (sumOp p.1) acc (identE p.2)) (identE x),
          pos + 1 + 2 * items.length) := by
  obtain ⟨t2, ht2, hcase⟩ := chainToks2_head items
  have h2 : ts.get? (pos + 1) = some t2 := by
    have h3 := get?_of_drop hdrop 0
    rw [Nat.add_zero] at h3
    rw [h3, ht2]
  have hstop : StopProduct t2 := by
    rcases hcase with rfl | ⟨q, hq2, rfl⟩
    · simp [StopProduct, StopAscribe]
    · rcases hops q hq2 with h | h <;> rw [h] <;> simp [StopProduct, StopAscribe]
  have hno : t2 ≠ Token.TDot ∧ t2 ≠ Token.TOpenParen := ⟨hstop.1.2.1, hstop.1.2.2⟩
  have hqf : ts.get? (pos + 1 + 2 * items.length) = some .TEndOfInput := by
    have h6 := get?_of_drop hdrop (2 * items.length)
    rw [chainToks2_getLast] at h6
    exact h6
  have hoper := product_of_apply_stop (5 * items.length + fuel)
    (ident_apply_stop (5 * items.length + fuel) h0 h2 hno.1 hno.2) h2 hstop
  have hloop := sum_chain ts items (identE x) (pos + 1) (fuel + 3) hdrop hops
  rw [show 5 * items.length + (fuel + 3) + 1 = 5 * items.length + fuel + 4 by
    omega] at hloop
  rw [show 5 * items.length + fuel + 14 = (5 * items.length + fuel + 4) + 10 by
    omega]
  generalize hG : (5 * items.length + fuel + 4 : Nat) = G
  rw [hG] at hoper hloop
  have hlev : sum_expr ts (G + 1) pos
      = .ok (items.foldl (fun acc p => binE (sumOp p.1) acc (identE p.2)) (identE x),
          pos + 1 + 2 * items.length) := by
    simp only [sum_expr, hoper, bind_ok, hloop]
  have hcmp := comparison_of_sum_eoi G hlev hqf
  have heq2 := equality_of_comparison_eoi (G + 1) hcmp hqf
  have hband := bitwise_and_of_equality_eoi (G + 2) heq2 hqf
  have hxor := xor_of_bitwise_and_eoi (G + 3) hband hqf
  have hbor := bitwise_or_of_xor_eoi (G + 4) hxor hqf
  have hand := logical_and_of_bitwise_or_eoi (G + 5) hbor hqf
  have hor := logical_or_of_logical_and_eoi (G + 6) hand hqf
  have hop := operator_of_logical_or_eoi (G + 7) hor
  exact expr_of_operator_ident (G + 8) h0 hop

/-- An identifier followed by a mixed `*`/`/`/`%` chain parses to the left fold,
with each link's operator chosen by its token, all the way up at `Parser::expr`. -/
theorem product_full (ts : List Token) (x : String) (items : List (Token × String))
    (pos fuel : Nat) (h0 : ts.get? pos = some (.TIdent x))
    (hdrop : ts.drop (pos + 1) = chainToks2 items)
    (hops : ∀ p, p ∈ items → p.1 = Token.TTimes ∨ p.1 = Token.TDivide ∨ p.1 = Token.TModulo) :
    expr ts (4 * items.length + fuel + 14) pos
      = .ok (items.foldl (fun acc p => binE (prodOp p.1) acc (identE p.2)) (identE x),
          pos + 1 + 2 * items.length) := by
  obtain ⟨t2, ht2, hcase⟩ := chainToks2_head items
  have h2 : ts.get? (pos + 1) = some t2 := by
    have h3 := get?_of_drop hdrop 0
    rw [Nat.add_zero] at h3
    rw [h3, ht2]
  have hstop : StopAscribe t2 := by
    rcases hcase with rfl | ⟨q, hq2, rfl⟩
    · simp [StopAscribe]
    · rcases hops q hq2 with h | h | h <;> rw [h] <;> simp [StopAscribe]
  have hno : t2 ≠ Token.TDot ∧ t2 ≠ Token.TOpenParen := ⟨hstop.2.1, hstop.2.2⟩
  have hqf : ts.get? (pos + 1 + 2 * items.length) = some .TEndOfInput := by
    have h6 := get?_of_drop hdrop (2 * items.length)
    rw [chainToks2_getLast] at h6
    exact h6
  have hoper := ascribe_of_apply_stop (4 * items.length + fuel)
    (ident_apply_stop (4 * items.length + fuel) h0 h2 hno.1 hno.2) h2 hstop
  have hloop := product_chain ts items (identE x) (pos + 1) (fuel + 2) hdrop hops
  rw [show 4 * items.length + (fuel + 2) + 1 = 4 * items.length + fuel + 3 by
    omega] at hloop
  rw [show 4 * items.length + fuel + 14 = (4 * items.length + fuel + 3) + 11 by
    omega]
  generalize hG : (4 * items.length + fuel + 3 : Nat) = G
  rw [hG] at hoper hloop
  have hlev : product_expr ts (G + 1) pos
      = .ok (items.foldl (fun acc p => binE (prodOp p.1) acc (identE p.2)) (identE x),
          pos + 1 + 2 * items.length) := by
    simp only [product_expr, hoper, bind_ok, hloop]
  have hsum := sum_of_product_eoi G hlev hqf
  have hcmp := comparison_of_sum_eoi (G + 1) hsum hqf
  have heq2 := equality_of_comparison_eoi (G + 2) hcmp hqf
  have hband := bitwise_and_of_equality_eoi (G + 3) heq2 hqf
  have hxor := xor_of_bitwise_and_eoi (G + 4) hband hqf
  have hbor := bitwise_or_of_xor_eoi (G + 5) hxor hqf
  have hand := logical_and_of_bitwise_or_eoi (G + 6) hbor hqf
  have hor := logical_or_of_logical_and_eoi (G + 7) hand hqf
  have hop := operator_of_logical_or_eoi (G + 8) hor
  exact expr_of_operator_ident (G + 9) h0 hop

/-- C2. Precedence and left-associativity of the binary-operator chain: the
full mixed example parses with each operator binding tighter than the one
before it, and at every looping level (`||`, `&&`, `|`, `^`, `&`, `+`/`-`,
`*`/`/`/`%`) an arbitrarily long chain of operators of that level over
arbitrary identifiers left-folds into `BinOp` nodes. -/
theorem claim_C2 :
    parse_expr "a || b && c | d ^ e & f == g > h + i * j"
      = .ok (binE .LogicalOr (identE "a") (binE .LogicalAnd (identE "b")
          (binE .BitwiseOr (identE "c") (binE .Xor (identE "d")
          (binE .BitwiseAnd (identE "e") (binE .Equal (identE "f")
          (binE .GreaterThan (identE "g") (binE .Add (identE "h")
          (binE .Multiply (identE "i") (identE "j"))))))))))
    ∧ (∀ (x : String) (ys : List String),
        parse_expr_tokens (Token.TIdent x :: chainToks .TLogicalOr ys)
          = .ok (ys.foldl (fun acc y => binE .LogicalOr acc (identE y)) (identE x)))
    ∧ (∀ (x : String) (ys : List String),
        parse_expr_tokens (Token.TIdent x :: chainToks .TLogicalAnd ys)
          = .ok (ys.foldl (fun acc y => binE .LogicalAnd acc (identE y)) (identE x)))
    ∧ (∀ (x : String) (ys : List String),
        parse_expr_tokens (Token.TIdent x :: chainToks .TBar ys)
          = .ok (ys.foldl (fun acc y => binE .BitwiseOr acc (identE y)) (identE x)))
    ∧ (∀ (x : String) (ys : List String),
        parse_expr_tokens (Token.TIdent x :: chainToks .TXor ys)
          = .ok (ys.foldl (fun acc y => binE .Xor acc (identE y)) (identE x)))
    ∧ (∀ (x : String) (ys : List String),
        parse_expr_tokens (Token.TIdent x :: chainToks .TBitwiseAnd ys)
          = .ok (ys.foldl (fun acc y => binE .BitwiseAnd acc (identE y)) (identE x)))
    ∧ (∀ (x : String) (items : List (Token × String)),
        (∀ p, p ∈ items → p.1 = Token.TPlus ∨ p.1 = Token.TMinus) →
        parse_expr_tokens (Token.TIdent x :: chainToks2 items)
          = .ok (items.foldl (fun acc p => binE (sumOp p.1) acc (identE p.2)) (identE x)))
    ∧ (∀ (x : String) (items : List (Token × String)),
        (∀ p, p ∈ items → p.1 = Token.TTimes ∨ p.1 = Token.TDivide ∨ p.1 = Token.TModulo) →
        parse_expr_tokens (Token.TIdent x :: chainToks2 items)
          = .ok (items.foldl (fun acc p => binE (prodOp p.1) acc (identE p.2)) (identE x))) := by
  refine ⟨by with_unfolding_all rfl, ?_, ?_, ?_, ?_, ?_, ?_, ?_⟩
  · intro x ys
    have h0 : (Token.TIdent x :: chainToks .TLogicalOr ys).get? 0 = some (Token.TIdent x) := rfl
    have hdrop : (Token.TIdent x :: chainToks .TLogicalOr ys).drop (0 + 1)
        = chainToks .TLogicalOr ys := rfl
    have hfull := logical_or_full (Token.TIdent x :: chainToks .TLogicalOr ys) x ys 0
      (52 * ys.length + 82) h0 hdrop
    have hfuel : 12 * ys.length + (52 * ys.length + 82) + 14
        = FUEL (Token.TIdent x :: chainToks .TLogicalOr ys) := by
      simp [FUEL, List.length_cons, chainToks_length]
      omega
    rw [hfuel] at hfull
    have h6 := get?_of_drop hdrop (2 * ys.length)
    rw [chainToks_getLast] at h6
    have hdone : is_done (Token.TIdent x :: chainToks .TLogicalOr ys) (0 + 1 + 2 * ys.length)
        = true := by
      simp [is_done]
      right
      simpa [List.get?_eq_getElem?] using h6
    exact endCheck_ok_of_done hfull hdone
  · intro x ys
    have h0 : (Token.TIdent x :: chainToks .TLogicalAnd ys).get? 0 = some (Token.TIdent x) := rfl
    have hdrop : (Token.TIdent x :: chainToks .TLogicalAnd ys).drop (0 + 1)
        = chainToks .TLogicalAnd ys := rfl
    have hfull := logical_and_full (Token.TIdent x :: chainToks .TLogicalAnd ys) x ys 0
      (53 * ys.length + 82) h0 hdrop
    have hfuel : 11 * ys.length + (53 * ys.length + 82) + 14
        = FUEL (Token.TIdent x :: chainToks .TLogicalAnd ys) := by
      simp [FUEL, List.length_cons, chainToks_length]
      omega
    rw [hfuel] at hfull
    have h6 := get?_of_drop hdrop (2 * ys.length)
    rw [chainToks_getLast] at h6
    have hdone : is_done (Token.TIdent x :: chainToks .TLogicalAnd ys) (0 + 1 + 2 * ys.length)
        = true := by
      simp [is_done]
      right
      simpa [List.get?_eq_getElem?] using h6
    exact endCheck_ok_of_done hfull hdone
  · intro x ys
    have h0 : (Token.TIdent x :: chainToks .TBar ys).get? 0 = some (Token.TIdent x) := rfl
    have hdrop : (Token.TIdent x :: chainToks .TBar ys).drop (0 + 1)
        = chainToks .TBar ys := rfl
    have hfull := bitwise_or_full (Token.TIdent x :: chainToks .TBar ys) x ys 0
      (54 * ys.length + 82) h0 hdrop
    have hfuel : 10 * ys.length + (54 * ys.length + 82) + 14
        = FUEL (Token.TIdent x :: chainToks .TBar ys) := by
      simp [FUEL, List.length_cons, chainToks_length]
      omega
    rw [hfuel] at hfull
    have h6 := get?_of_drop hdrop (2 * ys.length)
    rw [chainToks_getLast] at h6
    have hdone : is_done (Token.TIdent x :: chainToks .TBar ys) (0 + 1 + 2 * ys.length)
        = true := by
      simp [is_done]
      right
      simpa [List.get?_eq_getElem?] using h6
    exact endCheck_ok_of_done hfull hdone
  · intro x ys
    have h0 : (Token.TIdent x :: chainToks .TXor ys).get? 0 = some (Token.TIdent x) := rfl
    have hdrop : (Token.TIdent x :: chainToks .TXor ys).drop (0 + 1)
        = chainToks .TXor ys := rfl
    have hfull := xor_full (Token.TIdent x :: chainToks .TXor ys) x ys 0
      (55 * ys.length + 82) h0 hdrop
    have hfuel : 9 * ys.length + (55 * ys.length + 82) + 14
        = FUEL (Token.TIdent x :: chainToks .TXor ys) := by
      simp [FUEL, List.length_cons, chainToks_length]
      omega
    rw [hfuel] at hfull
    have h6 := get?_of_drop hdrop (2 * ys.length)
    rw [chainToks_getLast] at h6
    have hdone : is_done (Token.TIdent x :: chainToks .TXor ys) (0 + 1 + 2 * ys.length)
        = true := by
      simp [is_done]
      right
      simpa [List.get?_eq_getElem?] using h6
    exact endCheck_ok_of_done hfull hdone
  · intro x ys
    have h0 : (Token.TIdent x :: chainToks .TBitwiseAnd ys).get? 0 = some (Token.TIdent x) := rfl
    have hdrop : (Token.TIdent x :: chainToks .TBitwiseAnd ys).drop (0 + 1)
        = chainToks .TBitwiseAnd ys := rfl
    have hfull := bitwise_and_full (Token.TIdent x :: chainToks .TBitwiseAnd ys) x ys 0
      (56 * ys.length + 82) h0 hdrop
    have hfuel : 8 * ys.length + (56 * ys.length + 82) + 14
        = FUEL (Token.TIdent x :: chainToks .TBitwiseAnd ys) := by
      simp [FUEL, List.length_cons, chainToks_length]
      omega
    rw [hfuel] at hfull
    have h6 := get?_of_drop hdrop (2 * ys.length)
    rw [chainToks_getLast] at h6
    have hdone : is_done (Token.TIdent x :: chainToks .TBitwiseAnd ys) (0 + 1 + 2 * ys.length)
        = true := by
      simp [is_done]
      right
      simpa [List.get?_eq_getElem?] using h6
    exact endCheck_ok_of_done hfull hdone
  · intro x items hops
    have h0 : (Token.TIdent x :: chainToks2 items).get? 0 = some (Token.TIdent x) := rfl
    have hdrop : (Token.TIdent x :: chainToks2 items).drop (0 + 1) = chainToks2 items := rfl
    have hfull := sum_full (Token.TIdent x :: chainToks2 items) x items 0
      (59 * items.length + 82) h0 hdrop hops
    have hfuel : 5 * items.length + (59 * items.length + 82) + 14
        = FUEL (Token.TIdent x :: chainToks2 items) := by
      simp [FUEL, List.length_cons, chainToks2_length]
      omega
    rw [hfuel] at hfull
    have h6 := get?_of_drop hdrop (2 * items.length)
    rw [chainToks2_getLast] at h6
    have hdone : is_done (Token.TIdent x :: chainToks2 items) (0 + 1 + 2 * items.length)
        = true := by
      simp [is_done]
      right
      simpa [List.get?_eq_getElem?] using h6
    exact endCheck_ok_of_done hfull hdone
  · intro x items hops
    have h0 : (Token.TIdent x :: chainToks2 items).get? 0 = some (Token.TIdent x) := rfl
    have hdrop : (Token.TIdent x :: chainToks2 items).drop (0 + 1) = chainToks2 items := rfl
    have hfull := product_full (Token.TIdent x :: chainToks2 items) x items 0
      (60 * items.length + 82) h0 hdrop hops
    have hfuel : 4 * items.length + (60 * items.length + 82) + 14
        = FUEL (Token.TIdent x :: chainToks2 items) := by
      simp [FUEL, List.length_cons, chainToks2_length]
      omega
    rw [hfuel] at hfull
    have h6 := get?_of_drop hdrop (2 * items.length)
    rw [chainToks2_getLast] at h6
    have hdone : is_done (Token.TIdent x :: chainToks2 items) (0 + 1 + 2 * items.length)
        = true := by
      simp [is_done]
      right
      simpa [List.get?_eq_getElem?] using h6
    exact endCheck_ok_of_done hfull hdone

theorem claim_C2_witness :
    parse_expr_tokens [Token.TIdent "a", Token.TPlus, Token.TIdent "b", Token.TMinus,
        Token.TIdent "c", Token.TEndOfInput]
      = .ok (binE .Subtract (binE .Add (identE "a") (identE "b")) (identE "c"))
    ∧ parse_expr_tokens [Token.TIdent "a", Token.TTimes, Token.TIdent "b", Token.TDivide,
        Token.TIdent "c", Token.TModulo, Token.TIdent "d", Token.TEndOfInput]
      = .ok (binE .Modulo (binE .Divide (binE .Multiply (identE "a") (identE "b"))
          (identE "c")) (identE "d")) := by
  constructor
  · have h := claim_C2.2.2.2.2.2.2.1 "a" [(Token.TPlus, "b"), (Token.TMinus, "c")]
      (by intro p hp; fin_cases hp <;> simp)
    simpa [chainToks2, List.foldl_cons, List.foldl_nil, sumOp] using h
  · have h := claim_C2.2.2.2.2.2.2.2 "a"
      [(Token.TTimes, "b"), (Token.TDivide, "c"), (Token.TModulo, "d")]
      (by intro p hp; fin_cases hp <;> simp)
    simpa [chainToks2, List.foldl_cons, List.foldl_nil, prodOp] using h

/-- `u32::from_str_radix` on a nonempty all-digit string succeeds exactly on
the u32 range and returns the base-10 value. -/
theorem fromStrRadix_digits (ds : List Char) (h1 : ds ≠ []) (h2 : ∀ c ∈ ds, c.isDigit) :
    fromStrRadix10U32 ds
      = if charsToNat ds < 4294967296 then some (charsToNat ds) else none := by
  obtain ⟨c, cs, rfl⟩ : ∃ c cs, ds = c :: cs := by
    cases ds with
    | nil => simp at h1
    | cons c cs => exact ⟨_, _, rfl⟩
  have hc : c.isDigit := h2 c (by simp)
  have hcp : c ≠ '+' := by
    intro h
    rw [h] at hc
    simp [Char.isDigit] at hc
  unfold fromStrRadix10U32
  have hstrip : (match c :: cs with
      | '+' :: rest => rest
      | _ => c :: cs) = c :: cs := by
    split
    · next heq => rw [List.cons.injEq] at heq; exact absurd heq.1 hcp
    · rfl
  rw [hstrip]
  have hall : (c :: cs).all (fun ch => ch.isDigit) = true :=
    List.all_eq_true.mpr (fun x hx => h2 x hx)
  simp only [List.isEmpty_cons, hall, if_true, if_false]
  rfl

theorem dollarField_eq (e : PartialExpr) (ds : List Char) :
    dollarField e (String.mk ('$' :: ds))
      = match fromStrRadix10U32 ds with
        | some index => .ok (expr_box (.GetField e index))
        | none =>
          .error (.err ("Expected field index but got '" ++ String.mk ('$' :: ds) ++ "'")) := rfl

/-- One `.`-then-identifier step of the `apply_expr` loop whose field access
succeeds. -/
theorem apply_loop_dot_ident {ts : List Token} {pos : Nat} {e e2 : PartialExpr} {v : String}
    (f : Nat) (h1 : ts.get? pos = some .TDot) (h2 : ts.get? (pos + 1) = some (.TIdent v))
    (hd : dollarField e v = .ok e2) :
    apply_loop ts (f + 1) e pos = apply_loop ts f e2 (pos + 2) := by
  simp only [apply_loop, peek_eq h1, bind_ok, nextT_eq h1, nextT_eq h2, hd, reduceIte,
    true_or, if_true]

/-- One `.`-then-identifier step of the `apply_expr` loop whose field access
fails. -/
theorem apply_loop_dot_ident_err {ts : List Token} {pos : Nat} {e : PartialExpr} {v : String}
    {er : PErr} (f : Nat) (h1 : ts.get? pos = some .TDot)
    (h2 : ts.get? (pos + 1) = some (.TIdent v)) (hd : dollarField e v = .error er) :
    apply_loop ts (f + 1) e pos = .error er := by
  simp only [apply_loop, peek_eq h1, bind_ok, nextT_eq h1, nextT_eq h2, hd, reduceIte,
    true_or, if_true]

/-- C7. `appender` alone builds a NewBuilder whose type is
`Builder(Appender(Unknown))`, and `appender[T]` builds a NewBuilder whose
type is `Builder(Appender(T))` for every successfully parsed element type
`T`, for any fuel budget of the inner `type_` parse. -/
theorem claim_C7 :
    parse_expr "appender" = .ok (.mk .NewBuilder (.Builder (.Appender .Unknown)))
    ∧ ∀ (ts : List Token) (fuel p : Nat) (T : PartialType),
        ts.get? 0 = some .TAppender → ts.get? 1 = some .TOpenBracket →
        type_ ts fuel 2 = .ok (T, p) →
        ts.get? p = some .TCloseBracket → ts.get? (p + 1) = some .TEndOfInput →
        expr ts (fuel + 14) 0 = .ok (.mk .NewBuilder (.Builder (.Appender T)), p + 1) := by
  constructor
  · with_unfolding_all rfl
  intro ts fuel p T h0 h1 ht hp hq
  have hleaf : leaf_expr ts (fuel + 1) 0
      = .ok (.mk .NewBuilder (.Builder (.Appender T)), p + 1) := by
    simp only [leaf_expr, nextT_eq h0, bind_ok, peek_eq h1, consume_eq h1, ht,
      consume_eq hp, reduceIte, expr_box, PartialExpr.setTy]
  have happ : apply_expr ts (fuel + 2) 0
      = .ok (.mk .NewBuilder (.Builder (.Appender T)), p + 1) := by
    simp only [apply_expr, hleaf, bind_ok, apply_loop_exit _ _ hq]
  exact expr_of_apply fuel h0 (by simp) (by simp) (by simp) happ hq

/-- Witness for C7 with the element type `i32` parsed at positions 2..3. -/
theorem claim_C7_witness :
    type_ [.TAppender, .TOpenBracket, .TI32, .TCloseBracket, .TEndOfInput] 20 2
      = .ok (.Scalar .I32, 3)
    ∧ expr [.TAppender, .TOpenBracket, .TI32, .TCloseBracket, .TEndOfInput] 34 0
      = .ok (.mk .NewBuilder (.Builder (.Appender (.Scalar .I32))), 4) :=
  ⟨by with_unfolding_all rfl,
   claim_C7.2 [.TAppender, .TOpenBracket, .TI32, .TCloseBracket, .TEndOfInput] 20 3
     (.Scalar .I32) rfl rfl (by with_unfolding_all rfl) rfl rfl⟩

/-- C10. In a `.$N` field access the index must fit in an unsigned 32-bit
integer: over the tokens of `nm.$N` with `N` a base-10 digit string, the
parse yields `GetField` with index `N` when `N < 2^32`, and an error whose
message starts with "Expected field index" when `N ≥ 2^32`. -/
theorem claim_C10 (nm : String) (ds : List Char) (hne : ds ≠ []) (hdig : ∀ c ∈ ds, c.isDigit) :
    (charsToNat ds < 4294967296 →
      parse_expr_tokens [.TIdent nm, .TDot, .TIdent (String.mk ('$' :: ds)), .TEndOfInput]
        = .ok (expr_box (.GetField (identE nm) (charsToNat ds))))
    ∧ (4294967296 ≤ charsToNat ds →
      ∃ m, parse_expr_tokens [.TIdent nm, .TDot, .TIdent (String.mk ('$' :: ds)), .TEndOfInput]
          = .error (.err m) ∧ strStartsWith m ("Expected field index") = true) := by
  have hrad := fromStrRadix_digits ds hne hdig
  have hleaf : leaf_expr [.TIdent nm, .TDot, .TIdent (String.mk ('$' :: ds)), .TEndOfInput]
      147 0 = .ok (identE nm, 1) := by
    with_unfolding_all rfl
  constructor
  · intro hlt
    have key : fromStrRadix10U32 ds = some (charsToNat ds) := by
      rw [hrad, if_pos hlt]
    have hd : dollarField (identE nm) (String.mk ('$' :: ds))
        = .ok (expr_box (.GetField (identE nm) (charsToNat ds))) := by
      rw [dollarField_eq, key]
    have hstep := @apply_loop_dot_ident [.TIdent nm, .TDot,
      .TIdent (String.mk ('$' :: ds)), .TEndOfInput] 1 (identE nm)
      (expr_box (.GetField (identE nm) (charsToNat ds))) (String.mk ('$' :: ds))
      146 rfl rfl hd
    have hexit : apply_loop [.TIdent nm, .TDot, .TIdent (String.mk ('$' :: ds)), .TEndOfInput]
        146 (expr_box (.GetField (identE nm) (charsToNat ds))) 3
        = .ok (expr_box (.GetField (identE nm) (charsToNat ds)), 3) :=
      apply_loop_exit 145 _ rfl
    have happ : apply_expr [.TIdent nm, .TDot, .TIdent (String.mk ('$' :: ds)), .TEndOfInput]
        148 0 = .ok (expr_box (.GetField (identE nm) (charsToNat ds)), 3) := by
      simp only [apply_expr, hleaf, bind_ok, hstep, hexit]
    have hexpr := @expr_of_apply [.TIdent nm, .TDot, .TIdent (String.mk ('$' :: ds)),
      .TEndOfInput] 0 (expr_box (.GetField (identE nm) (charsToNat ds))) 3 (.TIdent nm)
      146 rfl (by simp) (by simp) (by simp) happ rfl
    have hwrap : parse_expr_tokens [.TIdent nm, .TDot, .TIdent (String.mk ('$' :: ds)),
        .TEndOfInput] = endCheck [.TIdent nm, .TDot, .TIdent (String.mk ('$' :: ds)),
        .TEndOfInput] (expr [.TIdent nm, .TDot, .TIdent (String.mk ('$' :: ds)),
        .TEndOfInput] 160 0) := rfl
    rw [hwrap]
    exact endCheck_ok_of_done hexpr rfl
  · intro hge
    have key : fromStrRadix10U32 ds = none := by
      rw [hrad, if_neg (by omega)]
    have hd : dollarField (identE nm) (String.mk ('$' :: ds))
        = .error (.err ("Expected field index but got '" ++ String.mk ('$' :: ds) ++ "'")) := by
      rw [dollarField_eq, key]
    have hstep := @apply_loop_dot_ident_err [.TIdent nm, .TDot,
      .TIdent (String.mk ('$' :: ds)), .TEndOfInput] 1 (identE nm) (String.mk ('$' :: ds))
      (.err ("Expected field index but got '" ++ String.mk ('$' :: ds) ++ "'"))
      146 rfl rfl hd
    have happ : apply_expr [.TIdent nm, .TDot, .TIdent (String.mk ('$' :: ds)), .TEndOfInput]
        148 0 = .error (.err ("Expected field index but got '" ++ String.mk ('$' :: ds)
          ++ "'")) := by
      simp only [apply_expr, hleaf, bind_ok, hstep]
    have hexpr := @expr_of_apply_err [.TIdent nm, .TDot, .TIdent (String.mk ('$' :: ds)),
      .TEndOfInput] 0 (.err ("Expected field index but got '" ++ String.mk ('$' :: ds)
        ++ "'")) (.TIdent nm) 146 rfl (by simp) (by simp) (by simp) happ
    refine ⟨"Expected field index but got '" ++ String.mk ('$' :: ds) ++ "'", ?_, ?_⟩
    · have hwrap : parse_expr_tokens [.TIdent nm, .TDot, .TIdent (String.mk ('$' :: ds)),
          .TEndOfInput] = endCheck [.TIdent nm, .TDot, .TIdent (String.mk ('$' :: ds)),
          .TEndOfInput] (expr [.TIdent nm, .TDot, .TIdent (String.mk ('$' :: ds)),
          .TEndOfInput] 160 0) := rfl
      rw [hwrap]
      exact endCheck_err hexpr
    · exact strStartsWith_append ("Expected field index")
        (" but got '" ++ (String.mk ('$' :: ds) ++ "'"))

/-- Witness for C10: the index 42 is accepted, the index 4294967296 = 2^32 is
rejected with an "Expected field index" error. -/
theorem claim_C10_witness :
    parse_expr_tokens [.TIdent "a", .TDot, .TIdent (String.mk ('$' :: ['4', '2'])),
        .TEndOfInput] = .ok (expr_box (.GetField (identE "a") (charsToNat ['4', '2'])))
    ∧ ∃ m, parse_expr_tokens [.TIdent "a", .TDot,
        .TIdent (String.mk ('$' :: ['4', '2', '9', '4', '9', '6', '7', '2', '9', '6'])),
        .TEndOfInput] = .error (.err m) ∧ strStartsWith m ("Expected field index") = true :=
  ⟨(claim_C10 "a" ['4', '2'] (by decide) (by decide)).1 (by decide),
   (claim_C10 "a" ['4', '2', '9', '4', '9', '6', '7', '2', '9', '6'] (by decide)
     (by decide)).2 (by decide)⟩

/-- C9. A `:` after an application-level expression replaces the type the
expression already carried: `setTy` discards the old type unconditionally,
and whenever `apply_expr` returns an expression that is followed by `:` and a
type, `ascribe_expr` returns that expression with its type overwritten; in
particular `appender[i32]` carries the builder type
`Builder(Appender(Scalar I32))`, and `appender[i32]:?` parses successfully
with that type overwritten by Unknown. -/
theorem claim_C9 :
    (∀ (k : ExprKind) (ty0 ty : PartialType),
        PartialExpr.setTy (.mk k ty0) ty = .mk k ty)
    ∧ (∀ (ts : List Token) (fuel pos : Nat) (e : PartialExpr) (q : Nat)
          (ty : PartialType) (q2 : Nat),
        apply_expr ts fuel pos = .ok (e, q) →
        ts.get? q = some .TColon →
        optional_type ts fuel q = .ok (ty, q2) →
        ascribe_expr ts (fuel + 1) pos = .ok (e.setTy ty, q2))
    ∧ parse_expr "appender[i32]"
        = .ok (.mk .NewBuilder (.Builder (.Appender (.Scalar .I32))))
    ∧ parse_expr "appender[i32]:?" = .ok (.mk .NewBuilder .Unknown) := by
  refine ⟨?_, ?_, ?_, ?_⟩
  · intro k ty0 ty
    rfl
  · intro ts fuel pos e q ty q2 h1 h2 h3
    simp only [ascribe_expr, h1, bind_ok, peek_eq h2, if_true, h3]
  · with_unfolding_all rfl
  · with_unfolding_all rfl

theorem claim_C9_witness :
    ascribe_expr [Token.TIdent "a", Token.TColon, Token.TQuestion, Token.TEndOfInput] 9 0
      = .ok (identE "a", 3) :=
  claim_C9.2.1 [Token.TIdent "a", Token.TColon, Token.TQuestion, Token.TEndOfInput] 8 0
    (identE "a") 1 .Unknown 3 (by with_unfolding_all rfl) rfl (by with_unfolding_all rfl)


theorem POk_fuelOut {α : Type} {ts : List Token} :
    POk ts (.error .fuelOut : Except PErr (α × Nat)) :=
  ⟨by simp, nofun⟩

theorem POk_errMsg {α : Type} {ts : List Token} (m : String) :
    POk ts (.error (.err m) : Except PErr (α × Nat)) :=
  ⟨by simp, nofun⟩

theorem POk_ok {α : Type} {ts : List Token} {a : α} {p : Nat} (h : p < ts.length) :
    POk ts (.ok (a, p)) :=
  ⟨by simp, fun a2 p2 he => by cases he; exact h⟩

theorem get?_lt {ts : List Token} {pos : Nat} {t : Token} (h : ts.get? pos = some t) :
    pos < ts.length := by
  by_contra hc
  rw [List.get?_eq_none.mpr (Nat.le_of_not_lt hc)] at h
  cases h

theorem exists_tok {ts : List Token} {pos : Nat} (h : pos < ts.length) :
    ∃ t, ts.get? pos = some t := by
  cases hg : ts.get? pos with
  | none => rw [List.get?_eq_none] at hg; omega
  | some t => exact ⟨t, rfl⟩

theorem lt_of_ne_eoi {ts : List Token} {pos : Nat} {t : Token} (hts : EndsWithEOI ts)
    (hg : ts.get? pos = some t) (hne : t ≠ .TEndOfInput) : pos + 1 < ts.length := by
  have hpos := get?_lt hg
  rcases Nat.lt_or_ge (pos + 1) ts.length with h | h
  · exact h
  · have hlen : pos = ts.length - 1 := by omega
    have hl : ts.get? (ts.length - 1) = some Token.TEndOfInput := by
      have h2 := hts
      unfold EndsWithEOI at h2
      rw [List.getLast?_eq_get?] at h2
      exact h2
    rw [← hlen, hg] at hl
    injection hl with h3
    exact absurd h3 hne

theorem symbol_POk {ts : List Token} {pos : Nat} (hts : EndsWithEOI ts) (h : pos < ts.length) :
    POk ts (symbol ts pos) := by
  obtain ⟨t, hg⟩ := exists_tok h
  unfold symbol
  rw [nextT_eq hg]
  dsimp only
  cases t
  all_goals first
    | exact POk_errMsg _
    | exact POk_ok (lt_of_ne_eoi hts hg (by simp))

theorem consume_POk {ts : List Token} {pos : Nat} {expected : Token} (hts : EndsWithEOI ts)
    (h : pos < ts.length) (hexp : expected ≠ .TEndOfInput) : POk ts (consume ts pos expected) := by
  obtain ⟨t, hg⟩ := exists_tok h
  unfold consume
  rw [nextT_eq hg]
  dsimp only
  by_cases he : t = expected
  · subst he
    rw [if_neg (fun hh => hh rfl)]
    exact POk_ok (lt_of_ne_eoi hts hg hexp)
  · rw [if_pos he]
    exact POk_errMsg _

theorem POk_bind {α β : Type} {ts : List Token} {r : Except PErr (α × Nat)}
    {g : α × Nat → Except PErr (β × Nat)} (hr : POk ts r)
    (hg : ∀ a p, r = .ok (a, p) → p < ts.length → POk ts (g (a, p))) :
    POk ts (r >>= g) := by
  cases r with
  | error e =>
    have he : e ≠ PErr.crash := by
      intro hh
      exact hr.1 (by rw [hh])
    have hred : ((Except.error e : Except PErr (α × Nat)) >>= g)
        = (.error e : Except PErr (β × Nat)) := rfl
    rw [hred]
    refine ⟨?_, nofun⟩
    intro hc
    injection hc with h2
    exact he h2
  | ok ap =>
    obtain ⟨a, p⟩ := ap
    exact hg a p rfl (hr.2 a p rfl)

/-- Every branch of the `$`-field step is a genuine value or message, never a
crash. -/
theorem dollarField_cases (e : PartialExpr) (v : String) :
    (∃ e2, dollarField e v = .ok e2) ∨ ∃ m, dollarField e v = .error (.err m) := by
  unfold dollarField
  split
  · split
    · exact Or.inl ⟨_, rfl⟩
    · exact Or.inr ⟨_, rfl⟩
  · exact Or.inl ⟨_, rfl⟩


theorem parserPOk (ts : List Token) (hts : EndsWithEOI ts) : ∀ fuel, ParserPOk ts fuel := by
  intro fuel
  induction fuel with
  | zero =>
    constructor <;>
      (intros
       simp only [program, macros, macro_, macro_params, expr, letExpr, lambda_expr,
         lambda_params, operator_expr, logical_or_expr, logical_or_loop, logical_and_expr,
         logical_and_loop, bitwise_or_expr, bitwise_or_loop, xor_expr, xor_loop,
         bitwise_and_expr, bitwise_and_loop, equality_expr, comparison_expr, sum_expr,
         sum_loop, product_expr, product_loop, ascribe_expr, apply_expr, apply_loop,
         call_params, leaf_expr, vec_elems, struct_elems, optional_type, type_, type_elems]
       exact POk_fuelOut)
  | succ fuel ih =>
    constructor
    case hprogram =>
      intro pos hpos
      simp only [program]
      exact POk_bind (ih.hmacros pos hpos) fun ms p _ hp =>
        POk_bind (ih.hexpr p hp) fun b p2 _ hp2 => POk_ok hp2
    case hmacros =>
      intro pos hpos
      simp only [macros]
      obtain ⟨t, hg⟩ := exists_tok hpos
      rw [peek_eq hg, bind_ok]
      by_cases ht : t = .TMacro
      · rw [if_pos ht]
        exact POk_bind (ih.hmacro pos hpos) fun m p _ hp =>
          POk_bind (ih.hmacros p hp) fun ms p2 _ hp2 => POk_ok hp2
      · rw [if_neg ht]
        exact POk_ok hpos
    case hmacro =>
      intro pos hpos
      simp only [macro_]
      exact POk_bind (consume_POk hts hpos (by simp)) fun _ p1 _ hp1 =>
        POk_bind (symbol_POk hts hp1) fun s p2 _ hp2 =>
        POk_bind (consume_POk hts hp2 (by simp)) fun _ p3 _ hp3 =>
        POk_bind (ih.hmparams p3 hp3) fun ps p4 _ hp4 =>
        POk_bind (consume_POk hts hp4 (by simp)) fun _ p5 _ hp5 =>
        POk_bind (consume_POk hts hp5 (by simp)) fun _ p6 _ hp6 =>
        POk_bind (ih.hexpr p6 hp6) fun b p7 _ hp7 =>
        POk_bind (consume_POk hts hp7 (by simp)) fun _ p8 _ hp8 => POk_ok hp8
    case hmparams =>
      intro pos hpos
      simp only [macro_params]
      obtain ⟨t, hg⟩ := exists_tok hpos
      rw [peek_eq hg, bind_ok]
      by_cases ht : t = .TCloseParen
      · rw [if_pos ht]
        exact POk_ok hpos
      · rw [if_neg ht]
        refine POk_bind (symbol_POk hts hpos) fun s p1 _ hp1 => ?_
        obtain ⟨t2, hg2⟩ := exists_tok hp1
        rw [peek_eq hg2, bind_ok]
        by_cases ht2 : t2 = .TComma
        · rw [if_pos ht2]
          exact POk_bind (ih.hmparams (p1 + 1) (lt_of_ne_eoi hts hg2 (by simp [ht2])))
            fun rest p2 _ hp2 => POk_ok hp2
        · rw [if_neg ht2]
          by_cases ht3 : t2 = .TCloseParen
          · rw [if_neg (fun hh => hh ht3)]
            exact POk_bind (ih.hmparams p1 hp1) fun rest p2 _ hp2 => POk_ok hp2
          · rw [if_pos ht3]
            exact POk_errMsg _
    case hexpr =>
      intro pos hpos
      simp only [expr]
      obtain ⟨t, hg⟩ := exists_tok hpos
      rw [peek_eq hg, bind_ok]
      by_cases h1 : t = .TLet
      · rw [if_pos h1]
        exact ih.hlet pos hpos
      · rw [if_neg h1]
        by_cases h2 : t = .TBar ∨ t = .TLogicalOr
        · rw [if_pos h2]
          exact ih.hlambda pos hpos
        · rw [if_neg h2]
          exact ih.hop pos hpos
    case hlet =>
      intro pos hpos
      simp only [letExpr]
      exact POk_bind (consume_POk hts hpos (by simp)) fun _ p1 _ hp1 =>
        POk_bind (symbol_POk hts hp1) fun s p2 _ hp2 =>
        POk_bind (ih.hopt p2 hp2) fun ty p3 _ hp3 =>
        POk_bind (consume_POk hts hp3 (by simp)) fun _ p4 _ hp4 =>
        POk_bind (ih.hop p4 hp4) fun v p5 _ hp5 =>
        POk_bind (consume_POk hts hp5 (by simp)) fun _ p6 _ hp6 =>
        POk_bind (ih.hexpr p6 hp6) fun b p7 _ hp7 => POk_ok hp7
    case hlambda =>
      intro pos hpos
      simp only [lambda_expr]
      obtain ⟨t, hg⟩ := exists_tok hpos
      rw [nextT_eq hg, bind_ok]
      by_cases h1 : t = .TBar
      · rw [if_pos h1]
        have hp1 : pos + 1 < ts.length := lt_of_ne_eoi hts hg (by simp [h1])
        exact POk_bind (ih.hlparams (pos + 1) hp1) fun ps p2 _ hp2 =>
          POk_bind (consume_POk hts hp2 (by simp)) fun _ p3 _ hp3 =>
          POk_bind (ih.hexpr p3 hp3) fun b p4 _ hp4 => POk_ok hp4
      · rw [if_neg h1]
        by_cases h2 : t = .TLogicalOr
        · rw [if_neg (fun hh => hh h2)]
          have hp1 : pos + 1 < ts.length := lt_of_ne_eoi hts hg (by simp [h2])
          exact POk_bind (ih.hexpr (pos + 1) hp1) fun b p2 _ hp2 => POk_ok hp2
        · rw [if_pos h2]
          exact POk_errMsg _
    case hlparams =>
      intro pos hpos
      simp only [lambda_params]
      obtain ⟨t, hg⟩ := exists_tok hpos
      rw [peek_eq hg, bind_ok]
      by_cases ht : t = .TBar
      · rw [if_pos ht]
        exact POk_ok hpos
      · rw [if_neg ht]
        refine POk_bind (symbol_POk hts hpos) fun s p1 _ hp1 => ?_
        refine POk_bind (ih.hopt p1 hp1) fun ty p2 _ hp2 => ?_
        obtain ⟨t2, hg2⟩ := exists_tok hp2
        rw [peek_eq hg2, bind_ok]
        by_cases ht2 : t2 = .TComma
        · rw [if_pos ht2]
          exact POk_bind (ih.hlparams (p2 + 1) (lt_of_ne_eoi hts hg2 (by simp [ht2])))
            fun rest p3 _ hp3 => POk_ok hp3
        · rw [if_neg ht2]
          by_cases ht3 : t2 = .TBar
          · rw [if_neg (fun hh => hh ht3)]
            exact POk_bind (ih.hlparams p2 hp2) fun rest p3 _ hp3 => POk_ok hp3
          · rw [if_pos ht3]
            exact POk_errMsg _
    case hop =>
      intro pos hpos
      simp only [operator_expr]
      exact ih.hor pos hpos
    case hor =>
      intro pos hpos
      simp only [logical_or_expr]
      exact POk_bind (ih.hand pos hpos) fun e p _ hp => ih.horl e p hp
    case horl =>
      intro res pos hpos
      simp only [logical_or_loop]
      obtain ⟨t, hg⟩ := exists_tok hpos
      rw [peek_eq hg, bind_ok]
      by_cases ht : t = .TLogicalOr
      · rw [if_pos ht]
        subst ht
        exact POk_bind (consume_POk hts hpos (by simp)) fun _ p1 _ hp1 =>
          POk_bind (ih.hand p1 hp1) fun r p2 _ hp2 => ih.horl _ p2 hp2
      · rw [if_neg ht]
        exact POk_ok hpos
    case hand =>
      intro pos hpos
      simp only [logical_and_expr]
      exact POk_bind (ih.hbor pos hpos) fun e p _ hp => ih.handl e p hp
    case handl =>
      intro res pos hpos
      simp only [logical_and_loop]
      obtain ⟨t, hg⟩ := exists_tok hpos
      rw [peek_eq hg, bind_ok]
      by_cases ht : t = .TLogicalAnd
      · rw [if_pos ht]
        subst ht
        exact POk_bind (consume_POk hts hpos (by simp)) fun _ p1 _ hp1 =>
          POk_bind (ih.hbor p1 hp1) fun r p2 _ hp2 => ih.handl _ p2 hp2
      · rw [if_neg ht]
        exact POk_ok hpos
    case hbor =>
      intro pos hpos
      simp only [bitwise_or_expr]
      exact POk_bind (ih.hxor pos hpos) fun e p _ hp => ih.hborl e p hp
    case hborl =>
      intro res pos hpos
      simp only [bitwise_or_loop]
      obtain ⟨t, hg⟩ := exists_tok hpos
      rw [peek_eq hg, bind_ok]
      by_cases ht : t = .TBar
      · rw [if_pos ht]
        subst ht
        exact POk_bind (consume_POk hts hpos (by simp)) fun _ p1 _ hp1 =>
          POk_bind (ih.hxor p1 hp1) fun r p2 _ hp2 => ih.hborl _ p2 hp2
      · rw [if_neg ht]
        exact POk_ok hpos
    case hxor =>
      intro pos hpos
      simp only [xor_expr]
      exact POk_bind (ih.hband pos hpos) fun e p _ hp => ih.hxorl e p hp
    case hxorl =>
      intro res pos hpos
      simp only [xor_loop]
      obtain ⟨t, hg⟩ := exists_tok hpos
      rw [peek_eq hg, bind_ok]
      by_cases ht : t = .TXor
      · rw [if_pos ht]
        subst ht
        exact POk_bind (consume_POk hts hpos (by simp)) fun _ p1 _ hp1 =>
          POk_bind (ih.hband p1 hp1) fun r p2 _ hp2 => ih.hxorl _ p2 hp2
      · rw [if_neg ht]
        exact POk_ok hpos
    case hband =>
      intro pos hpos
      simp only [bitwise_and_expr]
      exact POk_bind (ih.heqx pos hpos) fun e p _ hp => ih.hbandl e p hp
    case hbandl =>
      intro res pos hpos
      simp only [bitwise_and_loop]
      obtain ⟨t, hg⟩ := exists_tok hpos
      rw [peek_eq hg, bind_ok]
      by_cases ht : t = .TBitwiseAnd
      · rw [if_pos ht]
        subst ht
        exact POk_bind (consume_POk hts hpos (by simp)) fun _ p1 _ hp1 =>
          POk_bind (ih.heqx p1 hp1) fun r p2 _ hp2 => ih.hbandl _ p2 hp2
      · rw [if_neg ht]
        exact POk_ok hpos
    case heqx =>
      intro pos hpos
      simp only [equality_expr]
      refine POk_bind (ih.hcmp pos hpos) fun e p1 _ hp1 => ?_
      obtain ⟨t, hg⟩ := exists_tok hp1
      rw [peek_eq hg, bind_ok]
      by_cases ht : t = .TEqualEqual ∨ t = .TNotEqual
      · rw [if_pos ht]
        rw [nextT_eq hg, bind_ok]
        have hp2 : p1 + 1 < ts.length :=
          lt_of_ne_eoi hts hg (by rcases ht with h | h <;> simp [h])
        refine POk_bind (ih.hcmp (p1 + 1) hp2) fun r p3 _ hp3 => ?_
        by_cases h2 : t = .TEqualEqual
        · rw [if_pos h2]
          exact POk_ok hp3
        · rw [if_neg h2]
          exact POk_ok hp3
      · rw [if_neg ht]
        exact POk_ok hp1
    case hcmp =>
      intro pos hpos
      simp only [comparison_expr]
      refine POk_bind (ih.hsum pos hpos) fun e p1 _ hp1 => ?_
      obtain ⟨t, hg⟩ := exists_tok hp1
      rw [peek_eq hg, bind_ok]
      by_cases ht : t = .TLessThan ∨ t = .TLessThanOrEqual ∨ t = .TGreaterThan ∨
          t = .TGreaterThanOrEqual
      · rw [if_pos ht]
        rw [nextT_eq hg, bind_ok]
        have hp2 : p1 + 1 < ts.length :=
          lt_of_ne_eoi hts hg (by rcases ht with h | h | h | h <;> simp [h])
        exact POk_bind (ih.hsum (p1 + 1) hp2) fun r p3 _ hp3 => POk_ok hp3
      · rw [if_neg ht]
        exact POk_ok hp1
    case hsum =>
      intro pos hpos
      simp only [sum_expr]
      exact POk_bind (ih.hprod pos hpos) fun e p _ hp => ih.hsuml e p hp
    case hsuml =>
      intro res pos hpos
      simp only [sum_loop]
      obtain ⟨t, hg⟩ := exists_tok hpos
      rw [peek_eq hg, bind_ok]
      by_cases ht : t = .TPlus ∨ t = .TMinus
      · rw [if_pos ht]
        rw [nextT_eq hg, bind_ok]
        have hp1 : pos + 1 < ts.length :=
          lt_of_ne_eoi hts hg (by rcases ht with h | h <;> simp [h])
        refine POk_bind (ih.hprod (pos + 1) hp1) fun r p2 _ hp2 => ?_
        by_cases h2 : t = .TPlus
        · rw [if_pos h2]
          exact ih.hsuml _ p2 hp2
        · rw [if_neg h2]
          exact ih.hsuml _ p2 hp2
      · rw [if_neg ht]
        exact POk_ok hpos
    case hprod =>
      intro pos hpos
      simp only [product_expr]
      exact POk_bind (ih.hasc pos hpos) fun e p _ hp => ih.hprodl e p hp
    case hprodl =>
      intro res pos hpos
      simp only [product_loop]
      obtain ⟨t, hg⟩ := exists_tok hpos
      rw [peek_eq hg, bind_ok]
      by_cases ht : t = .TTimes ∨ t = .TDivide ∨ t = .TModulo
      · rw [if_pos ht]
        rw [nextT_eq hg, bind_ok]
        have hp1 : pos + 1 < ts.length :=
          lt_of_ne_eoi hts hg (by rcases ht with h | h | h <;> simp [h])
        exact POk_bind (ih.hasc (pos + 1) hp1) fun r p2 _ hp2 => ih.hprodl _ p2 hp2
      · rw [if_neg ht]
        exact POk_ok hpos
    case hasc =>
      intro pos hpos
      simp only [ascribe_expr]
      refine POk_bind (ih.happly pos hpos) fun e p1 _ hp1 => ?_
      obtain ⟨t, hg⟩ := exists_tok hp1
      rw [peek_eq hg, bind_ok]
      by_cases ht : t = .TColon
      · rw [if_pos ht]
        exact POk_bind (ih.hopt p1 hp1) fun ty p2 _ hp2 => POk_ok hp2
      · rw [if_neg ht]
        exact POk_ok hp1
    case happly =>
      intro pos hpos
      simp only [apply_expr]
      exact POk_bind (ih.hleaf pos hpos) fun e p _ hp => ih.happlyl e p hp
    case happlyl =>
      intro e pos hpos
      simp only [apply_loop]
      obtain ⟨t, hg⟩ := exists_tok hpos
      rw [peek_eq hg, bind_ok]
      by_cases ht : t = .TDot ∨ t = .TOpenParen
      · rw [if_pos ht]
        rw [nextT_eq hg, bind_ok]
        have hp1 : pos + 1 < ts.length :=
          lt_of_ne_eoi hts hg (by rcases ht with h | h <;> simp [h])
        by_cases h2 : t = .TDot
        · rw [if_pos h2]
          obtain ⟨t2, hg2⟩ := exists_tok hp1
          rw [nextT_eq hg2, bind_ok]
          cases t2
          all_goals dsimp only
          all_goals
            first
            | exact POk_errMsg _
            | (rename_i v
               rcases dollarField_cases e v with ⟨e2, hdf⟩ | ⟨m, hdf⟩ <;> rw [hdf]
               · exact ih.happlyl e2 (pos + 1 + 1) (lt_of_ne_eoi hts hg2 (by simp))
               · exact POk_errMsg _)
        · rw [if_neg h2]
          exact POk_bind (ih.hcall (pos + 1) hp1) fun ps p2 _ hp2 =>
            POk_bind (consume_POk hts hp2 (by simp)) fun _ p3 _ hp3 =>
            ih.happlyl _ p3 hp3
      · rw [if_neg ht]
        exact POk_ok hpos
    case hcall =>
      intro pos hpos
      simp only [call_params]
      obtain ⟨t, hg⟩ := exists_tok hpos
      rw [peek_eq hg, bind_ok]
      by_cases ht : t = .TCloseParen
      · rw [if_pos ht]
        exact POk_ok hpos
      · rw [if_neg ht]
        refine POk_bind (ih.hexpr pos hpos) fun e2 p1 _ hp1 => ?_
        obtain ⟨t2, hg2⟩ := exists_tok hp1
        rw [peek_eq hg2, bind_ok]
        by_cases ht2 : t2 = .TComma
        · rw [if_pos ht2]
          exact POk_bind (ih.hcall (p1 + 1) (lt_of_ne_eoi hts hg2 (by simp [ht2])))
            fun rest p2 _ hp2 => POk_ok hp2
        · rw [if_neg ht2]
          by_cases ht3 : t2 = .TCloseParen
          · rw [if_neg (fun hh => hh ht3)]
            exact POk_bind (ih.hcall p1 hp1) fun rest p2 _ hp2 => POk_ok hp2
          · rw [if_pos ht3]
            exact POk_errMsg _
    case hleaf =>
      intro pos hpos
      simp only [leaf_expr]
      obtain ⟨t, hg⟩ := exists_tok hpos
      rw [nextT_eq hg, bind_ok]
      cases t
      all_goals dsimp only
      all_goals
        first
        | exact POk_errMsg _
        | exact POk_ok (lt_of_ne_eoi hts hg (by simp))
        | (refine POk_bind (ih.hexpr (pos + 1) (lt_of_ne_eoi hts hg (by simp)))
             fun e2 p2 _ hp2 => ?_
           obtain ⟨t2, hg2⟩ := exists_tok hp2
           rw [nextT_eq hg2, bind_ok]
           by_cases h2 : t2 = .TCloseParen
           · rw [if_neg (fun hh => hh h2)]
             exact POk_ok (lt_of_ne_eoi hts hg2 (by simp [h2]))
           · rw [if_pos h2]
             exact POk_errMsg _)
        | exact POk_bind (ih.hvec (pos + 1) (lt_of_ne_eoi hts hg (by simp))) fun es p2 _ hp2 =>
            POk_bind (consume_POk hts hp2 (by simp)) fun _ p3 _ hp3 => POk_ok hp3
        | exact POk_bind (ih.hstruct (pos + 1) (lt_of_ne_eoi hts hg (by simp))) fun es p2 _ hp2 =>
            POk_bind (consume_POk hts hp2 (by simp)) fun _ p3 _ hp3 => POk_ok hp3
        | exact POk_bind (consume_POk hts (lt_of_ne_eoi hts hg (by simp)) (by simp))
            fun _ p2 _ hp2 =>
            POk_bind (ih.hexpr p2 hp2) fun c p3 _ hp3 =>
            POk_bind (consume_POk hts hp3 (by simp)) fun _ p4 _ hp4 =>
            POk_bind (ih.hexpr p4 hp4) fun e1 p5 _ hp5 =>
            POk_bind (consume_POk hts hp5 (by simp)) fun _ p6 _ hp6 =>
            POk_bind (ih.hexpr p6 hp6) fun e2 p7 _ hp7 =>
            POk_bind (consume_POk hts hp7 (by simp)) fun _ p8 _ hp8 => POk_ok hp8
        | exact POk_bind (consume_POk hts (lt_of_ne_eoi hts hg (by simp)) (by simp))
            fun _ p2 _ hp2 =>
            POk_bind (ih.hexpr p2 hp2) fun c p3 _ hp3 =>
            POk_bind (consume_POk hts hp3 (by simp)) fun _ p4 _ hp4 =>
            POk_bind (ih.hexpr p4 hp4) fun e1 p5 _ hp5 =>
            POk_bind (consume_POk hts hp5 (by simp)) fun _ p6 _ hp6 => POk_ok hp6
        | exact POk_bind (consume_POk hts (lt_of_ne_eoi hts hg (by simp)) (by simp))
            fun _ p2 _ hp2 =>
            POk_bind (ih.hexpr p2 hp2) fun c p3 _ hp3 =>
            POk_bind (consume_POk hts hp3 (by simp)) fun _ p4 _ hp4 => POk_ok hp4
        | (have hp1 : pos + 1 < ts.length := lt_of_ne_eoi hts hg (by simp)
           obtain ⟨t2, hg2⟩ := exists_tok hp1
           rw [peek_eq hg2, bind_ok]
           by_cases hb : t2 = .TOpenBracket
           · rw [if_pos hb]
             exact POk_bind (consume_POk hts hp1 (by simp)) fun _ p2 _ hp2 =>
               POk_bind (ih.htype p2 hp2) fun T p3 _ hp3 =>
               POk_bind (consume_POk hts hp3 (by simp)) fun _ p4 _ hp4 => POk_ok hp4
           · rw [if_neg hb]
             exact POk_ok hp1)
    case hvec =>
      intro pos hpos
      simp only [vec_elems]
      obtain ⟨t, hg⟩ := exists_tok hpos
      rw [peek_eq hg, bind_ok]
      by_cases ht : t = .TCloseBracket
      · rw [if_pos ht]
        exact POk_ok hpos
      · rw [if_neg ht]
        refine POk_bind (ih.hexpr pos hpos) fun e2 p1 _ hp1 => ?_
        obtain ⟨t2, hg2⟩ := exists_tok hp1
        rw [peek_eq hg2, bind_ok]
        by_cases ht2 : t2 = .TComma
        · rw [if_pos ht2]
          exact POk_bind (ih.hvec (p1 + 1) (lt_of_ne_eoi hts hg2 (by simp [ht2])))
            fun rest p2 _ hp2 => POk_ok hp2
        · rw [if_neg ht2]
          by_cases ht3 : t2 = .TCloseBracket
          · rw [if_neg (fun hh => hh ht3)]
            exact POk_bind (ih.hvec p1 hp1) fun rest p2 _ hp2 => POk_ok hp2
          · rw [if_pos ht3]
            exact POk_errMsg _
    case hstruct =>
      intro pos hpos
      simp only [struct_elems]
      obtain ⟨t, hg⟩ := exists_tok hpos
      rw [peek_eq hg, bind_ok]
      by_cases ht : t = .TCloseBrace
      · rw [if_pos ht]
        exact POk_ok hpos
      · rw [if_neg ht]
        refine POk_bind (ih.hexpr pos hpos) fun e2 p1 _ hp1 => ?_
        obtain ⟨t2, hg2⟩ := exists_tok hp1
        rw [peek_eq hg2, bind_ok]
        by_cases ht2 : t2 = .TComma
        · rw [if_pos ht2]
          exact POk_bind (ih.hstruct (p1 + 1) (lt_of_ne_eoi hts hg2 (by simp [ht2])))
            fun rest p2 _ hp2 => POk_ok hp2
        · rw [if_neg ht2]
          by_cases ht3 : t2 = .TCloseBrace
          · rw [if_neg (fun hh => hh ht3)]
            exact POk_bind (ih.hstruct p1 hp1) fun rest p2 _ hp2 => POk_ok hp2
          · rw [if_pos ht3]
            exact POk_errMsg _
    case hopt =>
      intro pos hpos
      simp only [optional_type]
      obtain ⟨t, hg⟩ := exists_tok hpos
      rw [peek_eq hg, bind_ok]
      by_cases ht : t = .TColon
      · rw [if_pos ht]
        exact POk_bind (consume_POk hts hpos (by simp)) fun _ p1 _ hp1 => ih.htype p1 hp1
      · rw [if_neg ht]
        exact POk_ok hpos
    case htype =>
      intro pos hpos
      simp only [type_]
      obtain ⟨t, hg⟩ := exists_tok hpos
      rw [nextT_eq hg, bind_ok]
      cases t
      all_goals dsimp only
      all_goals
        first
        | exact POk_errMsg _
        | exact POk_ok (lt_of_ne_eoi hts hg (by simp))
        | exact POk_bind (consume_POk hts (lt_of_ne_eoi hts hg (by simp)) (by simp))
            fun _ p2 _ hp2 =>
            POk_bind (ih.htype p2 hp2) fun T p3 _ hp3 =>
            POk_bind (consume_POk hts hp3 (by simp)) fun _ p4 _ hp4 => POk_ok hp4
        | exact POk_bind (ih.htelem (pos + 1) (lt_of_ne_eoi hts hg (by simp))) fun Tys p2 _ hp2 =>
            POk_bind (consume_POk hts hp2 (by simp)) fun _ p3 _ hp3 => POk_ok hp3
    case htelem =>
      intro pos hpos
      simp only [type_elems]
      obtain ⟨t, hg⟩ := exists_tok hpos
      rw [peek_eq hg, bind_ok]
      by_cases ht : t = .TCloseBrace
      · rw [if_pos ht]
        exact POk_ok hpos
      · rw [if_neg ht]
        refine POk_bind (ih.htype pos hpos) fun ty p1 _ hp1 => ?_
        obtain ⟨t2, hg2⟩ := exists_tok hp1
        rw [peek_eq hg2, bind_ok]
        by_cases ht2 : t2 = .TComma
        · rw [if_pos ht2]
          exact POk_bind (ih.htelem (p1 + 1) (lt_of_ne_eoi hts hg2 (by simp [ht2])))
            fun rest p2 _ hp2 => POk_ok hp2
        · rw [if_neg ht2]
          by_cases ht3 : t2 = .TCloseBrace
          · rw [if_neg (fun hh => hh ht3)]
            exact POk_bind (ih.htelem p1 hp1) fun rest p2 _ hp2 => POk_ok hp2
          · rw [if_pos ht3]
            exact POk_errMsg _

theorem POk_endCheck_no_crash {α : Type} {ts : List Token} {run : Except PErr (α × Nat)}
    (h : POk ts run) : endCheck ts run ≠ .error .crash := by
  unfold endCheck
  cases run with
  | error e =>
    intro hc
    injection hc with h2
    exact h.1 (by rw [h2])
  | ok vp =>
    obtain ⟨v, p⟩ := vp
    have hp : p < ts.length := h.2 v p rfl
    obtain ⟨t, hg⟩ := exists_tok hp
    dsimp only
    by_cases hd : is_done ts p
    · rw [if_pos hd]
      simp
    · rw [if_neg hd, hg]
      simp

/-- C8. For every token sequence ending with the EndOfInput sentinel, no peek
or next made during any of the four entry points indexes past the end of the
token slice: the model returns the distinguished `crash` outcome on any
out-of-bounds index, and it never does — neither in the entry wrappers at
their fuel nor in the core parses at any fuel. -/
theorem claim_C8 (ts : List Token) (fuel : Nat) (hts : EndsWithEOI ts) :
    parse_program_tokens ts ≠ .error .crash
    ∧ parse_macros_tokens ts ≠ .error .crash
    ∧ parse_expr_tokens ts ≠ .error .crash
    ∧ parse_type_tokens ts ≠ .error .crash
    ∧ program ts fuel 0 ≠ .error .crash
    ∧ macros ts fuel 0 ≠ .error .crash
    ∧ expr ts fuel 0 ≠ .error .crash
    ∧ type_ ts fuel 0 ≠ .error .crash := by
  have hlen : 0 < ts.length := by
    unfold EndsWithEOI at hts
    cases ts with
    | nil => cases hts
    | cons a l => simp
  have h1 := parserPOk ts hts (FUEL ts)
  have h2 := parserPOk ts hts fuel
  exact ⟨POk_endCheck_no_crash (h1.hprogram 0 hlen),
    POk_endCheck_no_crash (h1.hmacros 0 hlen),
    POk_endCheck_no_crash (h1.hexpr 0 hlen),
    POk_endCheck_no_crash (h1.htype 0 hlen),
    (h2.hprogram 0 hlen).1, (h2.hmacros 0 hlen).1,
    (h2.hexpr 0 hlen).1, (h2.htype 0 hlen).1⟩

/-- Witness for C8 at the one-token stream holding only the sentinel. -/
theorem claim_C8_witness :
    EndsWithEOI [Token.TEndOfInput]
    ∧ parse_expr_tokens [Token.TEndOfInput] ≠ .error .crash
    ∧ expr [Token.TEndOfInput] 5 0 ≠ .error .crash :=
  ⟨rfl, (claim_C8 [Token.TEndOfInput] 5 rfl).2.2.1,
    (claim_C8 [Token.TEndOfInput] 5 rfl).2.2.2.2.2.2.1⟩

end Weld
